import Mathlib

/-!
Shallow embedding of `src/libscheduler/libscheduler.c` (EECS678 Project 2
scheduler) together with proofs about the claims of its specification.

The job record, the comparators, the four event handlers and the statistics
queries are translated directly from the C source.  The ordered container
(`libpriqueue`, an external collaborator of the reviewed source) is modelled
from the specification's OrderedJobSet contract (§4.2).  C `int`s are
modelled as `Int` (no arithmetic here ever approaches 2^31); the intrusive
linked list of jobs is modelled as a Lean list kept in arrival order, and the
aliasing between the job list and the priority queue is modelled by letting
the queue store indices into the job list.
-/

set_option linter.unusedVariables false
set_option linter.unnecessarySimpa false

namespace Sched

/-- The six scheduling schemes of `scheme_t`. -/
inductive scheme_t where
  | FCFS | SJF | PSJF | PRI | PPRI | RR
deriving DecidableEq, Repr

open scheme_t

/-- The job record `_job_t` of libscheduler.c.  The intrusive `next` pointer
is represented by keeping the jobs in a Lean list in arrival order. -/
structure job_t where
  id : Int
  arr_time : Int
  duration : Int
  priority : Int
  remaining_time : Int
  wait_time : Int
  start_wait : Int
  response_time : Int
  turnover_time : Int
  turn : Int
  core_id : Int
deriving DecidableEq, Repr

/-- Placeholder job returned by out-of-range list lookups.  The handlers only
ever look up indices that are in range (this is part of the well-formedness
invariant), so its value is irrelevant; its fields are sentinels. -/
def defJob : job_t :=
  { id := -1, arr_time := 0, duration := 0, priority := 0, remaining_time := 0,
    wait_time := -1, start_wait := -1, response_time := -1, turnover_time := -1,
    turn := -1, core_id := -1 }

/-- `compare1`: FCFS comparator, by id. -/
def compare1 (a b : job_t) : Int := a.id - b.id

/-- `compare2`: SJF/PSJF comparator, by remaining time, tie-break by id. -/
def compare2 (a b : job_t) : Int :=
  if a.remaining_time < b.remaining_time then -1
  else if b.remaining_time < a.remaining_time then 1
  else a.id - b.id

/-- `compare3`: PRI/PPRI comparator, by priority, tie-break by id. -/
def compare3 (a b : job_t) : Int :=
  if a.priority < b.priority then -1
  else if b.priority < a.priority then 1
  else a.id - b.id

/-- `compare4`: RR comparator, by the `turn` field. -/
def compare4 (a b : job_t) : Int := a.turn - b.turn

/-- The comparator installed by the `switch` in `scheduler_start_up`. -/
def comparer : scheme_t → job_t → job_t → Int
  | FCFS => compare1
  | SJF => compare2
  | PSJF => compare2
  | PRI => compare3
  | PPRI => compare3
  | RR => compare4

/-- The global state of libscheduler.c: `numOfJobs`, `totalJobs`,
`numOfCores`, `core_arr`, the job list headed by `job_ptr` (in arrival
order), the priority queue `head` (as a list of indices into `jobs`), and the
scheme `sch`. -/
structure SchedState where
  numOfJobs : Int
  totalJobs : Nat
  numOfCores : Nat
  core_arr : List Int
  jobs : List job_t
  queue : List Nat
  sch : scheme_t
deriving DecidableEq, Repr

/-- Overwrite the job at registry index `k` by applying `f` to it
(in-place mutation of a `job_t` through an aliased pointer). -/
def updJob (reg : List job_t) (k : Nat) (f : job_t → job_t) : List job_t :=
  reg.set k (f (reg.getD k defJob))

/-- Modelled from the spec: OrderedJobSet `insert(job_ref) → rank` (§4.2).
The libpriqueue collaborator is not part of the reviewed source; per the
contract the element is placed by the installed comparator (here: before the
first member that compares strictly greater, i.e. after all members that do
not), and its rank is returned. -/
def pqOffer (cmp : job_t → job_t → Int) (reg : List job_t) (x : Nat) :
    List Nat → List Nat × Nat
  | [] => ([x], 0)
  | y :: ys =>
    if cmp (reg.getD x defJob) (reg.getD y defJob) < 0 then (x :: y :: ys, 0)
    else
      let r := pqOffer cmp reg x ys
      (y :: r.1, r.2 + 1)

/-- Modelled from the spec: OrderedJobSet `remove_at(rank)` (§4.2). -/
def removeAt : List Nat → Nat → List Nat
  | [], _ => []
  | _ :: ks, 0 => ks
  | k :: ks, n + 1 => k :: removeAt ks n

/-- First queue member (in rank order) whose job satisfies `p`; returns its
registry index.  This is the `while` scan both dispatch sites use. -/
def qFind (reg : List job_t) (p : job_t → Prop) [DecidablePred p] :
    List Nat → Option Nat
  | [] => none
  | k :: ks => if p (reg.getD k defJob) then some k else qFind reg p ks

/-- Rank of the first queue member whose job satisfies `p` (the `for` scans
of `scheduler_job_finished` / `scheduler_quantum_expired`). -/
def qFindIdx (reg : List job_t) (p : job_t → Prop) [DecidablePred p] :
    List Nat → Option Nat
  | [] => none
  | k :: ks =>
    if p (reg.getD k defJob) then some 0 else (qFindIdx reg p ks).map Nat.succ

/-- Index of the lowest-numbered idle core (the first `core_arr[i] == 0`). -/
def firstIdle : List Int → Option Nat
  | [] => none
  | v :: vs => if v = 0 then some 0 else (firstIdle vs).map Nat.succ

/-- The backwards scan of the preemption branch of `scheduler_new_job`:
the registry index of the last queue member with `core_id != -1`. -/
def findLastAssigned (reg : List job_t) : List Nat → Option Nat
  | [] => none
  | k :: ks =>
    match findLastAssigned reg ks with
    | some v => some v
    | none => if (reg.getD k defJob).core_id ≠ -1 then some k else none

/-- The lazy recomputation
`remaining_time = duration - (time - wait_time - arr_time)`. -/
def recomputeRemaining (time : Int) (j : job_t) : job_t :=
  { j with
    remaining_time := j.duration - (time - j.wait_time - j.arr_time) }

/-- The loop of `scheduler_new_job` that recomputes `remaining_time` of every
queue member that is currently running (`core_id != -1`). -/
def updateActive (time : Int) (reg : List job_t) : List Nat → List job_t
  | [] => reg
  | k :: ks =>
    let reg1 :=
      if (reg.getD k defJob).core_id ≠ -1 then
        updJob reg k (recomputeRemaining time)
      else reg
    updateActive time reg1 ks

/-- The RR renumbering loop: member at rank `i` gets `turn := n + i`. -/
def renumberFrom (reg : List job_t) (n : Int) : List Nat → List job_t
  | [] => reg
  | k :: ks => renumberFrom (updJob reg k (fun j => { j with turn := n })) (n + 1) ks

/-- `for (i = 0; i < size; i++) at(i)->turn = i;` -/
def renumber (reg : List job_t) (q : List Nat) : List job_t :=
  renumberFrom reg 0 q

/-- The statistics updates both dispatch sites perform on the job they hand a
core to, followed by the core assignment itself. -/
def dispatchAt (time : Int) (core : Int) (j : job_t) : job_t :=
  let j1 :=
    if j.response_time = -1 then
      { j with
        response_time := time - j.arr_time
        wait_time := time - j.arr_time }
    else j
  let j2 :=
    if j1.start_wait ≠ -1 then
      { j1 with
        wait_time := j1.wait_time + (time - j1.start_wait)
        start_wait := -1 }
    else j1
  { j2 with core_id := core }

/-- The update `scheduler_job_finished` applies to the finishing job:
record the turnaround, recompute the remaining time, clear the core, and
under RR clear the `turn` field. -/
def finishUpd (sch : scheme_t) (time : Int) (j : job_t) : job_t :=
  let j1 := { j with
              turnover_time := time - j.arr_time
              remaining_time := j.duration - (time - j.wait_time - j.arr_time)
              core_id := -1 }
  if sch = RR then { j1 with turn := -1 } else j1

/-- The update applied to a running job that is forced off its core
(quantum expiry, and the first half of the preemption-victim update):
clear the core, set `start_wait`, recompute the remaining time. -/
def yieldUpd (time : Int) (j : job_t) : job_t :=
  { j with
    core_id := -1
    start_wait := time
    remaining_time := j.duration - (time - j.wait_time - j.arr_time) }

/-- The update `scheduler_new_job` applies to the preemption victim: yield,
and if the job has not run any cycle, reset its statistics to the sentinels. -/
def victimUpd (time : Int) (j : job_t) : job_t :=
  let j1 := yieldUpd time j
  if j1.remaining_time = j1.duration then
    { j1 with
      response_time := -1
      start_wait := -1
      wait_time := -1 }
  else j1

/-- `turn := n` (the RR requeue / rank renumbering write). -/
def setTurn (n : Int) (j : job_t) : job_t := { j with turn := n }

/-- The update `scheduler_new_job` applies to the job it schedules
immediately on core `core`: `wait_time = 0`, `response_time = 0`, and under
RR `turn` gets the queue size `qlen`. -/
def newDispatchUpd (sch : scheme_t) (qlen : Int) (core : Int) (j : job_t) : job_t :=
  let j1 := { j with
              core_id := core
              wait_time := 0
              response_time := 0 }
  if sch = RR then { j1 with turn := qlen } else j1

/-- The shared tail of `scheduler_job_finished` and
`scheduler_quantum_expired`: scan the queue in rank order for the first job
with `core_id == -1`; if none, the core stays idle and -1 is returned,
otherwise that job's statistics are updated, it is assigned to `core_id`,
the core is marked busy, and its id is returned. -/
def selectNext (time : Int) (core_id : Nat) (s : SchedState) : SchedState × Int :=
  match qFind s.jobs (fun j => j.core_id = -1) s.queue with
  | none => (s, -1)
  | some k =>
    ({ s with
       jobs := updJob s.jobs k (dispatchAt time (core_id : Int))
       core_arr := s.core_arr.set core_id 1 },
     (s.jobs.getD k defJob).id)

/-- A freshly arrived job, as initialized by `scheduler_new_job`. -/
def newJobInit (job_number time running_time priority : Int) : job_t :=
  { id := job_number, arr_time := time, duration := running_time,
    priority := priority, remaining_time := running_time, wait_time := -1,
    start_wait := -1, response_time := -1, turnover_time := -1, turn := -1,
    core_id := -1 }

/-- `scheduler_start_up(cores, scheme)`. -/
def scheduler_start_up (cores : Nat) (scheme : scheme_t) : SchedState :=
  { numOfJobs := 0, totalJobs := 0, numOfCores := cores,
    core_arr := List.replicate cores 0, jobs := [], queue := [], sch := scheme }

/-- `scheduler_new_job(job_number, time, running_time, priority)`.
Returns the new state and the returned core index (-1 = no change).
The linked-list append of the C code assumes the ids arrive as 0, 1, 2, ...
(this is the stated precondition); the model appends at the end of `jobs`. -/
def scheduler_new_job (s : SchedState) (job_number time running_time priority : Int) :
    SchedState × Int :=
  let newIdx := s.jobs.length
  let s0 : SchedState :=
    { s with
      numOfJobs := s.numOfJobs + 1
      totalJobs := s.totalJobs + 1
      jobs := s.jobs ++ [newJobInit job_number time running_time priority] }
  -- update the remaining time of jobs that are currently active
  let reg1 := updateActive time s0.jobs s0.queue
  match firstIdle s0.core_arr with
  | some i =>
    -- a core is idle: schedule the new job there
    let reg2 := updJob reg1 newIdx
      (newDispatchUpd s0.sch (s0.queue.length : Int) (i : Int))
    let q2 := (pqOffer (comparer s0.sch) reg2 newIdx s0.queue).1
    ({ s0 with jobs := reg2, queue := q2, core_arr := s0.core_arr.set i 1 }, (i : Int))
  | none =>
    if s0.sch = PSJF ∨ s0.sch = PPRI then
      -- all cores busy: check whether the new job preempts a running one
      let off := pqOffer (comparer s0.sch) reg1 newIdx s0.queue
      let q1 := off.1
      if off.2 < s0.numOfCores then
        match findLastAssigned reg1 q1 with
        | some v =>
          let c := (reg1.getD v defJob).core_id
          let reg2 := updJob reg1 v (victimUpd time)
          let reg3 := updJob reg2 newIdx (newDispatchUpd FCFS 0 c)
          ({ s0 with jobs := reg3, queue := q1, core_arr := s0.core_arr.set c.toNat 1 }, c)
        | none =>
          -- no running job found: in the C code new_core_id stays -1
          let reg3 := updJob reg1 newIdx (newDispatchUpd FCFS 0 (-1))
          ({ s0 with jobs := reg3, queue := q1 }, -1)
      else
        ({ s0 with jobs := reg1, queue := q1 }, -1)
    else
      -- not schedulable right away: just insert it into the queue
      let reg2 :=
        if s0.sch = RR then
          updJob reg1 newIdx (setTurn (s0.queue.length : Int))
        else reg1
      let q1 := (pqOffer (comparer s0.sch) reg2 newIdx s0.queue).1
      ({ s0 with jobs := reg2, queue := q1 }, -1)

/-- `scheduler_job_finished(core_id, job_number, time)`.  Returns the new
state and the returned job id (-1 = core stays idle).  When `job_number` is
not in the queue the C code reads the uninitialized `idle_core_id` (undefined
behaviour, excluded by the preconditions); the model then dispatches to
`core_id`. -/
def scheduler_job_finished (s : SchedState) (core_id : Nat) (job_number time : Int) :
    SchedState × Int :=
  let s0 : SchedState :=
    { s with
      numOfJobs := s.numOfJobs - 1
      core_arr := s.core_arr.set core_id 0 }
  match qFindIdx s0.jobs (fun j => j.id = job_number) s0.queue with
  | some i =>
    let k := s0.queue.getD i 0
    let reg1 := updJob s0.jobs k (finishUpd s0.sch time)
    let q1 := removeAt s0.queue i
    let reg2 := if s0.sch = RR then renumber reg1 q1 else reg1
    selectNext time core_id { s0 with jobs := reg2, queue := q1 }
  | none =>
    let reg2 := if s0.sch = RR then renumber s0.jobs s0.queue else s0.jobs
    selectNext time core_id { s0 with jobs := reg2 }

/-- `scheduler_quantum_expired(core_id, time)`.  Returns the new state and
the returned job id (-1 = core stays idle).  When no queue member runs on
`core_id` the C code offers the uninitialized `curr` (undefined behaviour,
excluded by the preconditions); the model then returns -1 unchanged. -/
def scheduler_quantum_expired (s : SchedState) (core_id : Nat) (time : Int) :
    SchedState × Int :=
  match qFindIdx s.jobs (fun j => j.core_id = (core_id : Int)) s.queue with
  | some i =>
    let k := s.queue.getD i 0
    let s1 : SchedState := { s with core_arr := s.core_arr.set core_id (-1) }
    let reg1 := updJob s1.jobs k (yieldUpd time)
    let q1 := removeAt s1.queue i
    let reg2 := updJob reg1 k (setTurn (q1.length : Int))
    let reg3 := renumber reg2 q1
    let q2 := (pqOffer (comparer s1.sch) reg3 k q1).1
    selectNext time core_id { s1 with jobs := reg3, queue := q2 }
  | none => (s, -1)

/-- Sum of `wait_time` over the first `totalJobs` list entries (the loop of
`scheduler_average_waiting_time`). -/
def totalWaitTime (s : SchedState) : Int :=
  (((s.jobs.take s.totalJobs).map job_t.wait_time)).sum

/-- Sum of `turnover_time` over the job list. -/
def totalTurnTime (s : SchedState) : Int :=
  (((s.jobs.take s.totalJobs).map job_t.turnover_time)).sum

/-- Sum of `response_time` over the job list. -/
def totalRespTime (s : SchedState) : Int :=
  (((s.jobs.take s.totalJobs).map job_t.response_time)).sum

/-- `scheduler_average_waiting_time` computes
`(float)totalWaitTime / (float)totalJobs` unconditionally.  The embedding
returns the (numerator, denominator) pair of that floating-point division so
that the division the code performs is visible: the call divides by zero
exactly when the second component is 0. -/
def scheduler_average_waiting_time (s : SchedState) : Int × Int :=
  (totalWaitTime s, (s.totalJobs : Int))

/-- `scheduler_average_turnaround_time` computes
`(float)totalTurnTime / (float)totalJobs` unconditionally; numerator and
denominator of that division. -/
def scheduler_average_turnaround_time (s : SchedState) : Int × Int :=
  (totalTurnTime s, (s.totalJobs : Int))

/-- `scheduler_average_response_time` computes
`(float)totalRespTime / (float)totalJobs` unconditionally (it also declares
the variable-length array `int resp_arr[totalJobs]`); numerator and
denominator of that division. -/
def scheduler_average_response_time (s : SchedState) : Int × Int :=
  (totalRespTime s, (s.totalJobs : Int))

/-- The events the driving simulator can deliver. -/
inductive Event where
  | arrival (job_number time running_time priority : Int)
  | finished (core_id : Nat) (job_number time : Int)
  | quantum (core_id : Nat) (time : Int)
deriving DecidableEq, Repr

/-- The time at which an event is delivered. -/
def eventTime : Event → Int
  | .arrival _ t _ _ => t
  | .finished _ _ t => t
  | .quantum _ t => t

/-- Run the corresponding handler. -/
def applyEvent (s : SchedState) : Event → SchedState × Int
  | .arrival jn t r p => scheduler_new_job s jn t r p
  | .finished c jn t => scheduler_job_finished s c jn t
  | .quantum c t => scheduler_quantum_expired s c t

/-- The handler preconditions (§4.1, §5, §7 of the spec): events are
delivered in non-decreasing time order; job ids arrive as 0, 1, 2, ... and
arrival times are unique (strictly larger than every earlier arrival);
a completion names a queued job that is on the named core and whose executed
time has reached its duration; a quantum expiry only occurs under RR, on a
core on which a queued job is running. -/
def ValidEvent (s : SchedState) (clk : Int) : Event → Prop
  | .arrival jn t _r _p =>
    jn = (s.totalJobs : Int) ∧ clk ≤ t ∧ ∀ j ∈ s.jobs, j.arr_time < t
  | .finished c jn t =>
    clk ≤ t ∧ c < s.numOfCores ∧
      ∃ k ∈ s.queue, (s.jobs.getD k defJob).id = jn ∧
        (s.jobs.getD k defJob).core_id = (c : Int) ∧
        t - (s.jobs.getD k defJob).wait_time - (s.jobs.getD k defJob).arr_time =
          (s.jobs.getD k defJob).duration
  | .quantum c t =>
    clk ≤ t ∧ c < s.numOfCores ∧ s.sch = RR ∧
      ∃ k ∈ s.queue, (s.jobs.getD k defJob).core_id = (c : Int)

instance (s : SchedState) (clk : Int) (e : Event) : Decidable (ValidEvent s clk e) := by
  cases e <;> simp only [ValidEvent] <;> infer_instance

/-- Reachable states: `scheduler_start_up` with a positive core count,
followed by any sequence of valid events.  The second component is the time
of the last delivered event (a lower bound for the next one). -/
inductive Reach : SchedState → Int → Prop where
  | start (cores : Nat) (sc : scheme_t) (t0 : Int) :
      0 < cores → 0 ≤ t0 → Reach (scheduler_start_up cores sc) t0
  | step {s : SchedState} {clk : Int} (e : Event) :
      Reach s clk → ValidEvent s clk e → Reach (applyEvent s e).1 (eventTime e)

/-- The tuple of all `job_t` fields except `remaining_time`; used to state
that the lazy remaining-time recomputation touches nothing else. -/
def statsOf (j : job_t) : Int × Int × Int × Int × Int × Int × Int × Int × Int × Int :=
  (j.id, j.arr_time, j.duration, j.priority, j.wait_time, j.start_wait,
   j.response_time, j.turnover_time, j.turn, j.core_id)

/-- Number of cores marked busy (`core_arr[i] == 1`). -/
def countBusy (core_arr : List Int) : Nat :=
  core_arr.countP (fun v => decide (v = 1))

/-- Number of registered jobs that are uncompleted (`turnover_time` still
the sentinel) and hold a core (`core_id != -1`). -/
def countAssigned (reg : List job_t) : Nat :=
  reg.countP (fun j => decide (j.turnover_time = -1 ∧ j.core_id ≠ -1))

/-- The inductive well-formedness invariant of reachable scheduler states:
`clk` is the time of the last delivered event. -/
structure WF (s : SchedState) (clk : Int) : Prop where
  hclk : 0 ≤ clk
  hcores : 0 < s.numOfCores
  hlen : s.core_arr.length = s.numOfCores
  htot : s.jobs.length = s.totalJobs
  hcv : ∀ i, i < s.core_arr.length →
    s.core_arr.getD i 0 = 0 ∨ s.core_arr.getD i 0 = 1
  hqix : ∀ k ∈ s.queue, k < s.jobs.length
  hnodup : s.queue.Nodup
  hids : ∀ k, k < s.jobs.length → (s.jobs.getD k defJob).id = (k : Int)
  harr : ∀ m, m < s.jobs.length →
    0 ≤ (s.jobs.getD m defJob).arr_time ∧ (s.jobs.getD m defJob).arr_time ≤ clk
  hcompl : ∀ k, k < s.jobs.length →
    (k ∈ s.queue ↔ (s.jobs.getD k defJob).turnover_time = -1)
  hrange : ∀ k ∈ s.queue, (s.jobs.getD k defJob).core_id = -1 ∨
    (0 ≤ (s.jobs.getD k defJob).core_id ∧
     (s.jobs.getD k defJob).core_id.toNat < s.numOfCores ∧
     s.core_arr.getD (s.jobs.getD k defJob).core_id.toNat 0 = 1)
  hinj : ∀ k1 ∈ s.queue, ∀ k2 ∈ s.queue, k1 ≠ k2 →
    (s.jobs.getD k1 defJob).core_id ≠ -1 →
    (s.jobs.getD k1 defJob).core_id ≠ (s.jobs.getD k2 defJob).core_id
  hcount : countBusy s.core_arr = countAssigned s.jobs
  hrun : ∀ k ∈ s.queue, (s.jobs.getD k defJob).core_id ≠ -1 →
    0 ≤ (s.jobs.getD k defJob).response_time ∧
    0 ≤ (s.jobs.getD k defJob).wait_time ∧
    (s.jobs.getD k defJob).start_wait = -1
  hidleJ : ∀ k ∈ s.queue, (s.jobs.getD k defJob).core_id = -1 →
    ((s.jobs.getD k defJob).response_time = -1 ∧
     (s.jobs.getD k defJob).wait_time = -1 ∧
     (s.jobs.getD k defJob).start_wait = -1) ∨
    (0 ≤ (s.jobs.getD k defJob).response_time ∧
     0 ≤ (s.jobs.getD k defJob).wait_time ∧
     ((s.jobs.getD k defJob).start_wait = -1 ∨
      (0 ≤ (s.jobs.getD k defJob).start_wait ∧
       (s.jobs.getD k defJob).start_wait ≤ clk)))
  hturn : s.sch = RR → ∀ i, i < s.queue.length →
    (s.jobs.getD (s.queue.getD i 0) defJob).turn = (i : Int)

/-- The state both dispatch sites (`scheduler_job_finished`,
`scheduler_quantum_expired`) are in just before `selectNext`: the full
invariant except that the target core `c` holds 0 (finished) or -1 (quantum
— and then a ready job is guaranteed to exist), rather than 0 or 1. -/
structure PreWF (s : SchedState) (clk : Int) (c : Nat) : Prop where
  hclk : 0 ≤ clk
  hcores : 0 < s.numOfCores
  hlen : s.core_arr.length = s.numOfCores
  htot : s.jobs.length = s.totalJobs
  hc_lt : c < s.numOfCores
  hcv : ∀ i, i < s.core_arr.length → i ≠ c →
    s.core_arr.getD i 0 = 0 ∨ s.core_arr.getD i 0 = 1
  hc_at : s.core_arr.getD c 0 = 0 ∨
    (s.core_arr.getD c 0 = -1 ∧
      ∃ k ∈ s.queue, (s.jobs.getD k defJob).core_id = -1)
  hqix : ∀ k ∈ s.queue, k < s.jobs.length
  hnodup : s.queue.Nodup
  hids : ∀ k, k < s.jobs.length → (s.jobs.getD k defJob).id = (k : Int)
  harr : ∀ m, m < s.jobs.length →
    0 ≤ (s.jobs.getD m defJob).arr_time ∧ (s.jobs.getD m defJob).arr_time ≤ clk
  hcompl : ∀ k, k < s.jobs.length →
    (k ∈ s.queue ↔ (s.jobs.getD k defJob).turnover_time = -1)
  hrange : ∀ k ∈ s.queue, (s.jobs.getD k defJob).core_id = -1 ∨
    (0 ≤ (s.jobs.getD k defJob).core_id ∧
     (s.jobs.getD k defJob).core_id.toNat < s.numOfCores ∧
     s.core_arr.getD (s.jobs.getD k defJob).core_id.toNat 0 = 1)
  hinj : ∀ k1 ∈ s.queue, ∀ k2 ∈ s.queue, k1 ≠ k2 →
    (s.jobs.getD k1 defJob).core_id ≠ -1 →
    (s.jobs.getD k1 defJob).core_id ≠ (s.jobs.getD k2 defJob).core_id
  hcount : countBusy s.core_arr = countAssigned s.jobs
  hrun : ∀ k ∈ s.queue, (s.jobs.getD k defJob).core_id ≠ -1 →
    0 ≤ (s.jobs.getD k defJob).response_time ∧
    0 ≤ (s.jobs.getD k defJob).wait_time ∧
    (s.jobs.getD k defJob).start_wait = -1
  hidleJ : ∀ k ∈ s.queue, (s.jobs.getD k defJob).core_id = -1 →
    ((s.jobs.getD k defJob).response_time = -1 ∧
     (s.jobs.getD k defJob).wait_time = -1 ∧
     (s.jobs.getD k defJob).start_wait = -1) ∨
    (0 ≤ (s.jobs.getD k defJob).response_time ∧
     0 ≤ (s.jobs.getD k defJob).wait_time ∧
     ((s.jobs.getD k defJob).start_wait = -1 ∨
      (0 ≤ (s.jobs.getD k defJob).start_wait ∧
       (s.jobs.getD k defJob).start_wait ≤ clk)))
  hturn : s.sch = RR → ∀ i, i < s.queue.length →
    (s.jobs.getD (s.queue.getD i 0) defJob).turn = (i : Int)

/-! ### A concrete PSJF run used as a test vector

One core, PSJF.  Job 0 arrives at t=0 (duration 2) and runs; job 1 arrives
at t=1 (duration 5) and waits; job 0 finishes at t=2 and job 1 is dispatched
(`response_time = 1`); job 2 arrives at t=2 (duration 1) and preempts job 1,
which at that instant has executed zero time units, so its statistics are
reset; job 2 finishes at t=3 and job 1 is dispatched again
(`response_time = 2`). -/

def psjfS1 : SchedState × Int := scheduler_new_job (scheduler_start_up 1 PSJF) 0 0 2 1

def psjfS2 : SchedState × Int := scheduler_new_job psjfS1.1 1 1 5 1

def psjfS3 : SchedState × Int := scheduler_job_finished psjfS2.1 0 0 2

def psjfS4 : SchedState × Int := scheduler_new_job psjfS3.1 2 2 1 1

def psjfS5 : SchedState × Int := scheduler_job_finished psjfS4.1 0 2 3

/-- A concrete RR run on one core: job 0 arrives at t=0 (duration 4) and
runs; job 1 arrives at t=1 (duration 4) and waits. -/
def rrS1 : SchedState × Int := scheduler_new_job (scheduler_start_up 1 RR) 0 0 4 1

/-- See `rrS1`. -/
def rrS2 : SchedState × Int := scheduler_new_job rrS1.1 1 1 4 1

/-- See `rrS1`: the quantum expires on core 0 at t=2. -/
def rrS3 : SchedState × Int := scheduler_quantum_expired rrS2.1 0 2

/-- A concrete FCFS run on one core: job 0 arrives at t=0 (duration 5) and
is dispatched to core 0. -/
def fcfsS1 : SchedState × Int := scheduler_new_job (scheduler_start_up 1 FCFS) 0 0 5 1

/-- A pair of jobs an SJF run can hold at the same time: `sjfJobA` has been
running for 8 of its 10 time units (remaining 2), `sjfJobB` is a fresh
arrival of duration 5. -/
def sjfJobA : job_t :=
  { id := 0, arr_time := 0, duration := 10, priority := 0, remaining_time := 2,
    wait_time := 0, start_wait := -1, response_time := 0, turnover_time := -1,
    turn := -1, core_id := 0 }

/-- See `sjfJobA`. -/
def sjfJobB : job_t :=
  { id := 1, arr_time := 8, duration := 5, priority := 0, remaining_time := 5,
    wait_time := -1, start_wait := -1, response_time := -1, turnover_time := -1,
    turn := -1, core_id := -1 }

/-! ### Generic list lemmas -/

theorem getD_set_self {α : Type} (l : List α) (k : Nat) (a d : α)
    (h : k < l.length) : (l.set k a).getD k d = a := by
  induction l generalizing k with
  | nil => simp at h
  | cons x xs ih =>
    cases k with
    | zero => rfl
    | succ n => simpa using ih n (by simpa using h)

theorem getD_set_ne {α : Type} (l : List α) (k m : Nat) (a d : α)
    (h : k ≠ m) : (l.set k a).getD m d = l.getD m d := by
  induction l generalizing k m with
  | nil => rfl
  | cons x xs ih =>
    cases k with
    | zero =>
      cases m with
      | zero => exact absurd rfl h
      | succ n => rfl
    | succ n =>
      cases m with
      | zero => rfl
      | succ n2 => simpa using ih n n2 (by omega)

theorem set_of_length_le {α : Type} (l : List α) (k : Nat) (a : α)
    (h : l.length ≤ k) : l.set k a = l := by
  induction l generalizing k with
  | nil => rfl
  | cons x xs ih =>
    cases k with
    | zero => simp at h
    | succ n => simpa using ih n (by simpa using h)

theorem getD_append_lt {α : Type} (l l2 : List α) (k : Nat) (d : α)
    (h : k < l.length) : (l ++ l2).getD k d = l.getD k d := by
  induction l generalizing k with
  | nil => simp at h
  | cons x xs ih =>
    cases k with
    | zero => rfl
    | succ n => simpa using ih n (by simpa using h)

theorem getD_append_length {α : Type} (l : List α) (x d : α) :
    (l ++ [x]).getD l.length d = x := by
  induction l with
  | nil => rfl
  | cons y ys ih => simpa using ih

theorem getD_of_length_le {α : Type} (l : List α) (k : Nat) (d : α)
    (h : l.length ≤ k) : l.getD k d = d := by
  induction l generalizing k with
  | nil => rfl
  | cons x xs ih =>
    cases k with
    | zero => simp at h
    | succ n => simpa using ih n (by simpa using h)

theorem getD_mem {α : Type} (l : List α) (k : Nat) (d : α)
    (h : k < l.length) : l.getD k d ∈ l := by
  induction l generalizing k with
  | nil => simp at h
  | cons x xs ih =>
    cases k with
    | zero => simp [List.getD]
    | succ n =>
      simp only [List.getD_cons_succ]
      exact List.mem_cons_of_mem _ (ih n (by simpa using h))

/-! ### Lemmas about the model's helper functions -/

theorem updJob_length (reg : List job_t) (k : Nat) (f : job_t → job_t) :
    (updJob reg k f).length = reg.length := by
  simp [updJob]

theorem updJob_getD_self (reg : List job_t) (k : Nat) (f : job_t → job_t)
    (h : k < reg.length) :
    (updJob reg k f).getD k defJob = f (reg.getD k defJob) := by
  unfold updJob
  exact getD_set_self _ _ _ _ h

theorem updJob_getD_ne (reg : List job_t) (k m : Nat) (f : job_t → job_t)
    (h : k ≠ m) : (updJob reg k f).getD m defJob = reg.getD m defJob := by
  unfold updJob
  exact getD_set_ne _ _ _ _ _ h

theorem updateActive_length (time : Int) (reg : List job_t) (q : List Nat) :
    (updateActive time reg q).length = reg.length := by
  induction q generalizing reg with
  | nil => rfl
  | cons k ks ih =>
    simp only [updateActive]
    split
    · rw [ih, updJob_length]
    · rw [ih]

theorem updateActive_getD_not_mem (time : Int) (reg : List job_t)
    (q : List Nat) (m : Nat) (h : m ∉ q) :
    (updateActive time reg q).getD m defJob = reg.getD m defJob := by
  induction q generalizing reg with
  | nil => rfl
  | cons k ks ih =>
    simp only [updateActive]
    have hkm : k ≠ m := fun he => h (he ▸ List.mem_cons_self k ks)
    have hm : m ∉ ks := fun hm => h (List.mem_cons_of_mem _ hm)
    split
    · rw [ih _ hm, updJob_getD_ne _ _ _ _ hkm]
    · exact ih _ hm

theorem firstIdle_eq_some (l : List Int) (i0 : Nat) (hi0 : i0 < l.length)
    (hidle : l.getD i0 0 = 0) (hlow : ∀ m, m < i0 → l.getD m 0 ≠ 0) :
    firstIdle l = some i0 := by
  induction l generalizing i0 with
  | nil => simp at hi0
  | cons v vs ih =>
    cases i0 with
    | zero =>
      simp only [List.getD_cons_zero] at hidle
      simp [firstIdle, hidle]
    | succ n =>
      have hv : v ≠ 0 := by
        have := hlow 0 (Nat.succ_pos n)
        simpa using this
      simp only [firstIdle, if_neg hv]
      rw [ih n (by simpa using hi0) (by simpa using hidle)
        (fun m hm => by simpa using hlow (m + 1) (by omega))]
      rfl

theorem firstIdle_none (l : List Int) (h : firstIdle l = none) :
    ∀ m, m < l.length → l.getD m 0 ≠ 0 := by
  induction l with
  | nil => intro m hm; simp at hm
  | cons v vs ih =>
    intro m hm
    simp only [firstIdle] at h
    by_cases hv : v = 0
    · simp [hv] at h
    · simp only [if_neg hv, Option.map_eq_none'] at h
      cases m with
      | zero => simpa using hv
      | succ n => exact ih h n (by simpa using hm)

theorem pqOffer_spec (cmp : job_t → job_t → Int) (reg : List job_t) (x : Nat)
    (q : List Nat) :
    ∃ l1 l2, q = l1 ++ l2 ∧ (pqOffer cmp reg x q).1 = l1 ++ x :: l2 ∧
      (pqOffer cmp reg x q).2 = l1.length := by
  induction q with
  | nil => exact ⟨[], [], rfl, rfl, rfl⟩
  | cons y ys ih =>
    simp only [pqOffer]
    split
    · exact ⟨[], y :: ys, rfl, rfl, rfl⟩
    · obtain ⟨l1, l2, h1, h2, h3⟩ := ih
      exact ⟨y :: l1, l2, by simp [h1], by simp [h2], by simp [h3]⟩

theorem pqOffer_mem (cmp : job_t → job_t → Int) (reg : List job_t) (x : Nat)
    (q : List Nat) (a : Nat) :
    a ∈ (pqOffer cmp reg x q).1 ↔ a = x ∨ a ∈ q := by
  obtain ⟨l1, l2, h1, h2, _⟩ := pqOffer_spec cmp reg x q
  rw [h2, h1]
  simp only [List.mem_append, List.mem_cons]
  tauto

theorem pqOffer_length (cmp : job_t → job_t → Int) (reg : List job_t)
    (x : Nat) (q : List Nat) :
    (pqOffer cmp reg x q).1.length = q.length + 1 := by
  obtain ⟨l1, l2, h1, h2, _⟩ := pqOffer_spec cmp reg x q
  rw [h2, h1]; simp; omega

theorem pqOffer_nodup (cmp : job_t → job_t → Int) (reg : List job_t)
    (x : Nat) (q : List Nat) (hx : x ∉ q) (hq : q.Nodup) :
    (pqOffer cmp reg x q).1.Nodup := by
  obtain ⟨l1, l2, h1, h2, _⟩ := pqOffer_spec cmp reg x q
  rw [h2]
  subst h1
  have h3 : List.Perm (l1 ++ x :: l2) (x :: (l1 ++ l2)) := List.perm_middle
  rw [List.Perm.nodup_iff h3]
  exact List.nodup_cons.2 ⟨hx, hq⟩

/-- If the new element compares strictly below no member, it is appended at
the end (rank = old size). -/
theorem pqOffer_append_of_ge (cmp : job_t → job_t → Int) (reg : List job_t)
    (x : Nat) (q : List Nat)
    (h : ∀ y ∈ q, ¬ cmp (reg.getD x defJob) (reg.getD y defJob) < 0) :
    (pqOffer cmp reg x q).1 = q ++ [x] ∧ (pqOffer cmp reg x q).2 = q.length := by
  induction q with
  | nil => exact ⟨rfl, rfl⟩
  | cons y ys ih =>
    simp only [pqOffer]
    rw [if_neg (h y (List.mem_cons_self y ys))]
    obtain ⟨ih1, ih2⟩ := ih (fun z hz => h z (List.mem_cons_of_mem _ hz))
    constructor
    · simp [ih1]
    · simp [ih2]

theorem removeAt_length (q : List Nat) (i : Nat) (h : i < q.length) :
    (removeAt q i).length + 1 = q.length := by
  induction q generalizing i with
  | nil => simp at h
  | cons k ks ih =>
    cases i with
    | zero => rfl
    | succ n => simpa [removeAt] using ih n (by simpa using h)

theorem removeAt_subset (q : List Nat) (i : Nat) :
    ∀ a ∈ removeAt q i, a ∈ q := by
  induction q generalizing i with
  | nil => intro a ha; simpa [removeAt] using ha
  | cons k ks ih =>
    intro a ha
    cases i with
    | zero => exact List.mem_cons_of_mem _ ha
    | succ n =>
      simp only [removeAt, List.mem_cons] at ha
      rcases ha with h | h
      · exact h ▸ List.mem_cons_self _ _
      · exact List.mem_cons_of_mem _ (ih n a h)

theorem removeAt_spec (q : List Nat) (i : Nat) (h : i < q.length) :
    ∃ l1 l2, q = l1 ++ q.getD i 0 :: l2 ∧ removeAt q i = l1 ++ l2 ∧
      l1.length = i := by
  induction q generalizing i with
  | nil => simp at h
  | cons k ks ih =>
    cases i with
    | zero => exact ⟨[], ks, rfl, rfl, rfl⟩
    | succ n =>
      obtain ⟨l1, l2, h1, h2, h3⟩ := ih n (by simpa using h)
      refine ⟨k :: l1, l2, ?_, ?_, ?_⟩
      · simpa using h1
      · simpa [removeAt] using h2
      · simpa using h3

theorem removeAt_nodup (q : List Nat) (i : Nat) (hq : q.Nodup) :
    (removeAt q i).Nodup := by
  induction q generalizing i with
  | nil => simpa [removeAt]
  | cons k ks ih =>
    cases i with
    | zero => exact (List.nodup_cons.1 hq).2
    | succ n =>
      rw [List.nodup_cons] at hq
      refine List.nodup_cons.2 ⟨fun hm => hq.1 (removeAt_subset ks n k hm), ih n hq.2⟩

theorem removeAt_not_mem (q : List Nat) (i : Nat) (hq : q.Nodup)
    (h : i < q.length) : q.getD i 0 ∉ removeAt q i := by
  obtain ⟨l1, l2, h1, h2, _⟩ := removeAt_spec q i h
  rw [h2]
  have hq2 : (l1 ++ q.getD i 0 :: l2).Nodup := h1 ▸ hq
  have hperm : List.Perm (l1 ++ q.getD i 0 :: l2) (q.getD i 0 :: (l1 ++ l2)) :=
    List.perm_middle
  exact (List.nodup_cons.1 ((List.Perm.nodup_iff hperm).1 hq2)).1

theorem qFind_eq_some (reg : List job_t) (p : job_t → Prop) [DecidablePred p]
    (q : List Nat) (k : Nat) (h : qFind reg p q = some k) :
    k ∈ q ∧ p (reg.getD k defJob) := by
  induction q with
  | nil => simp [qFind] at h
  | cons y ys ih =>
    simp only [qFind] at h
    split at h
    · cases h
      exact ⟨List.mem_cons_self _ _, by assumption⟩
    · obtain ⟨h1, h2⟩ := ih h
      exact ⟨List.mem_cons_of_mem _ h1, h2⟩

theorem qFind_eq_none (reg : List job_t) (p : job_t → Prop) [DecidablePred p]
    (q : List Nat) (h : qFind reg p q = none) :
    ∀ k ∈ q, ¬ p (reg.getD k defJob) := by
  induction q with
  | nil => intro k hk; simp at hk
  | cons y ys ih =>
    intro k hk
    simp only [qFind] at h
    split at h
    · cases h
    · rcases List.mem_cons.1 hk with h2 | h2
      · subst h2; assumption
      · exact ih h k h2

theorem qFindIdx_eq_some (reg : List job_t) (p : job_t → Prop) [DecidablePred p]
    (q : List Nat) (i : Nat) (h : qFindIdx reg p q = some i) :
    i < q.length ∧ p (reg.getD (q.getD i 0) defJob) ∧
      ∀ m, m < i → ¬ p (reg.getD (q.getD m 0) defJob) := by
  induction q generalizing i with
  | nil => simp [qFindIdx] at h
  | cons y ys ih =>
    simp only [qFindIdx] at h
    split at h
    · cases h
      refine ⟨by simp, by assumption, fun m hm => by omega⟩
    · rw [Option.map_eq_some'] at h
      obtain ⟨n, hn, rfl⟩ := h
      obtain ⟨h1, h2, h3⟩ := ih n hn
      refine ⟨by simpa using h1, by simpa using h2, ?_⟩
      intro m hm
      cases m with
      | zero => simpa using (by assumption : ¬ p (reg.getD y defJob))
      | succ m2 => simpa using h3 m2 (by omega)

theorem qFindIdx_eq_none (reg : List job_t) (p : job_t → Prop) [DecidablePred p]
    (q : List Nat) (h : qFindIdx reg p q = none) :
    ∀ k ∈ q, ¬ p (reg.getD k defJob) := by
  induction q with
  | nil => intro k hk; simp at hk
  | cons y ys ih =>
    intro k hk
    simp only [qFindIdx] at h
    split at h
    · cases h
    · rw [Option.map_eq_none'] at h
      rcases List.mem_cons.1 hk with h2 | h2
      · subst h2; assumption
      · exact ih h k h2

theorem findLastAssigned_eq_some (reg : List job_t) (q : List Nat) (v : Nat)
    (h : findLastAssigned reg q = some v) :
    v ∈ q ∧ (reg.getD v defJob).core_id ≠ -1 := by
  induction q with
  | nil => simp [findLastAssigned] at h
  | cons y ys ih =>
    simp only [findLastAssigned] at h
    split at h
    · rename_i v2 hv2
      cases h
      obtain ⟨h1, h2⟩ := ih hv2
      exact ⟨List.mem_cons_of_mem _ h1, h2⟩
    · split at h
      · cases h
        exact ⟨List.mem_cons_self _ _, by assumption⟩
      · cases h

theorem findLastAssigned_eq_none (reg : List job_t) (q : List Nat)
    (h : findLastAssigned reg q = none) :
    ∀ k ∈ q, (reg.getD k defJob).core_id = -1 := by
  induction q with
  | nil => intro k hk; simp at hk
  | cons y ys ih =>
    intro k hk
    simp only [findLastAssigned] at h
    split at h
    · cases h
    · rename_i hnone
      split at h
      · cases h
      · rename_i hy
        rcases List.mem_cons.1 hk with h2 | h2
        · subst h2
          exact not_not.1 hy
        · exact ih hnone k h2

theorem removeAt_mem_iff (q : List Nat) (i : Nat) (hq : q.Nodup)
    (h : i < q.length) (a : Nat) :
    a ∈ removeAt q i ↔ a ∈ q ∧ a ≠ q.getD i 0 := by
  obtain ⟨l1, l2, h1, h2, _⟩ := removeAt_spec q i h
  constructor
  · intro ha
    refine ⟨removeAt_subset q i a ha, fun he => ?_⟩
    exact removeAt_not_mem q i hq h (he ▸ ha)
  · intro ⟨ha, hne⟩
    rw [h2]
    rw [h1] at ha
    rcases List.mem_append.1 ha with hm | hm
    · exact List.mem_append.2 (Or.inl hm)
    · rcases List.mem_cons.1 hm with hm2 | hm2
      · exact absurd hm2 hne
      · exact List.mem_append.2 (Or.inr hm2)

/-! ### Counting lemmas -/

theorem countP_set_eq {α : Type} (p : α → Bool) (l : List α) (k : Nat) (a d : α)
    (he : p a = p (l.getD k d)) : (l.set k a).countP p = l.countP p := by
  induction l generalizing k with
  | nil => rfl
  | cons x xs ih =>
    cases k with
    | zero =>
      simp only [List.getD_cons_zero] at he
      simp [List.countP_cons, he]
    | succ n =>
      simp only [List.getD_cons_succ] at he
      simp [List.countP_cons, ih n he]

theorem countP_set_true {α : Type} (p : α → Bool) (l : List α) (k : Nat) (a d : α)
    (hk : k < l.length) (hold : p (l.getD k d) = false) (hnew : p a = true) :
    (l.set k a).countP p = l.countP p + 1 := by
  induction l generalizing k with
  | nil => simp at hk
  | cons x xs ih =>
    cases k with
    | zero =>
      simp only [List.getD_cons_zero] at hold
      simp [List.countP_cons, hold, hnew]
    | succ n =>
      simp only [List.getD_cons_succ] at hold
      simp only [List.set_cons_succ, List.countP_cons]
      rw [ih n (by simpa using hk) hold]
      omega

theorem countP_set_false {α : Type} (p : α → Bool) (l : List α) (k : Nat) (a d : α)
    (hk : k < l.length) (hold : p (l.getD k d) = true) (hnew : p a = false) :
    (l.set k a).countP p + 1 = l.countP p := by
  induction l generalizing k with
  | nil => simp at hk
  | cons x xs ih =>
    cases k with
    | zero =>
      simp only [List.getD_cons_zero] at hold
      simp [List.countP_cons, hold, hnew]
    | succ n =>
      simp only [List.getD_cons_succ] at hold
      simp only [List.set_cons_succ, List.countP_cons]
      rw [← ih n (by simpa using hk) hold]
      omega

theorem countAssigned_updJob_keep (reg : List job_t) (k : Nat) (f : job_t → job_t)
    (hf : ∀ j, ((f j).turnover_time = -1 ∧ (f j).core_id ≠ -1) ↔
      (j.turnover_time = -1 ∧ j.core_id ≠ -1)) :
    countAssigned (updJob reg k f) = countAssigned reg := by
  unfold countAssigned updJob
  apply countP_set_eq _ _ _ _ defJob
  simp only [decide_eq_decide]
  exact hf (reg.getD k defJob)

theorem countAssigned_updateActive (time : Int) (reg : List job_t) (q : List Nat) :
    countAssigned (updateActive time reg q) = countAssigned reg := by
  induction q generalizing reg with
  | nil => rfl
  | cons k ks ih =>
    simp only [updateActive]
    split
    · rw [ih, countAssigned_updJob_keep]
      intro j
      simp [recomputeRemaining]
    · exact ih reg

theorem countAssigned_renumberFrom (reg : List job_t) (n : Int) (q : List Nat) :
    countAssigned (renumberFrom reg n q) = countAssigned reg := by
  induction q generalizing reg n with
  | nil => rfl
  | cons k ks ih =>
    simp only [renumberFrom]
    rw [ih, countAssigned_updJob_keep]
    intro j
    simp

theorem countAssigned_append (reg : List job_t) (j : job_t)
    (h : ¬ (j.turnover_time = -1 ∧ j.core_id ≠ -1)) :
    countAssigned (reg ++ [j]) = countAssigned reg := by
  unfold countAssigned
  rw [List.countP_append]
  simp [h]

theorem countBusy_le_length (core_arr : List Int) :
    countBusy core_arr ≤ core_arr.length :=
  List.countP_le_length _

/-! ### Field-preservation lemmas for the bulk updates -/

theorem renumberFrom_length (reg : List job_t) (n : Int) (q : List Nat) :
    (renumberFrom reg n q).length = reg.length := by
  induction q generalizing reg n with
  | nil => rfl
  | cons k ks ih => simp only [renumberFrom]; rw [ih, updJob_length]

theorem renumberFrom_getD_not_mem (reg : List job_t) (n : Int) (q : List Nat)
    (m : Nat) (h : m ∉ q) :
    (renumberFrom reg n q).getD m defJob = reg.getD m defJob := by
  induction q generalizing reg n with
  | nil => rfl
  | cons k ks ih =>
    simp only [renumberFrom]
    have hkm : k ≠ m := fun he => h (he ▸ List.mem_cons_self k ks)
    have hm : m ∉ ks := fun hm => h (List.mem_cons_of_mem _ hm)
    rw [ih _ _ hm, updJob_getD_ne _ _ _ _ hkm]

theorem renumberFrom_getD_mem (reg : List job_t) (n : Int) (q : List Nat)
    (i : Nat) (hnd : q.Nodup) (hi : i < q.length)
    (hlen : q.getD i 0 < reg.length) :
    (renumberFrom reg n q).getD (q.getD i 0) defJob =
      { reg.getD (q.getD i 0) defJob with turn := n + i } := by
  induction q generalizing reg n i with
  | nil => simp at hi
  | cons k ks ih =>
    rw [List.nodup_cons] at hnd
    cases i with
    | zero =>
      simp only [List.getD_cons_zero] at hlen ⊢
      simp only [renumberFrom]
      rw [renumberFrom_getD_not_mem _ _ _ _ hnd.1,
        updJob_getD_self _ _ _ hlen]
      simp
    | succ m =>
      simp only [List.getD_cons_succ] at hlen ⊢
      simp only [renumberFrom]
      have hkq : k ≠ ks.getD m 0 := by
        intro he
        have hmem : ks.getD m 0 ∈ ks := getD_mem _ _ _ (by simpa using hi)
        exact hnd.1 (he ▸ hmem)
      rw [ih _ _ _ hnd.2 (by simpa using hi) (by rwa [updJob_length]),
        updJob_getD_ne _ _ _ _ hkq]
      have : n + 1 + (m : Int) = n + (m + 1 : Nat) := by push_cast; ring
      rw [this]

/-- `updateActive` changes only the `remaining_time` field: every other
field of every registry slot is untouched. -/
theorem updateActive_statsOf (time : Int) (reg : List job_t) (q : List Nat)
    (m : Nat) :
    statsOf ((updateActive time reg q).getD m defJob) =
      statsOf (reg.getD m defJob) := by
  induction q generalizing reg with
  | nil => rfl
  | cons k ks ih =>
    simp only [updateActive]
    split
    · rw [ih]
      by_cases hmk : m = k
      · subst hmk
        by_cases hlt : m < reg.length
        · rw [updJob_getD_self _ _ _ hlt]
          rfl
        · unfold updJob
          rw [set_of_length_le _ _ _ (by omega)]
      · rw [updJob_getD_ne _ _ _ _ (Ne.symm hmk)]
    · exact ih reg

/-- Unpack a `statsOf` equality into the individual field equalities. -/
theorem statsOf_ext {j j' : job_t} (h : statsOf j' = statsOf j) :
    j'.id = j.id ∧ j'.arr_time = j.arr_time ∧ j'.duration = j.duration ∧
    j'.priority = j.priority ∧ j'.wait_time = j.wait_time ∧
    j'.start_wait = j.start_wait ∧ j'.response_time = j.response_time ∧
    j'.turnover_time = j.turnover_time ∧ j'.turn = j.turn ∧
    j'.core_id = j.core_id := by
  simpa [statsOf, Prod.ext_iff] using h

theorem dispatchAt_id (t c : Int) (j : job_t) : (dispatchAt t c j).id = j.id := by
  unfold dispatchAt
  dsimp only
  split <;> split <;> rfl

theorem dispatchAt_arr (t c : Int) (j : job_t) :
    (dispatchAt t c j).arr_time = j.arr_time := by
  unfold dispatchAt
  dsimp only
  split <;> split <;> rfl

theorem dispatchAt_duration (t c : Int) (j : job_t) :
    (dispatchAt t c j).duration = j.duration := by
  unfold dispatchAt
  dsimp only
  split <;> split <;> rfl

theorem dispatchAt_turnover (t c : Int) (j : job_t) :
    (dispatchAt t c j).turnover_time = j.turnover_time := by
  unfold dispatchAt
  dsimp only
  split <;> split <;> rfl

theorem dispatchAt_turn (t c : Int) (j : job_t) :
    (dispatchAt t c j).turn = j.turn := by
  unfold dispatchAt
  dsimp only
  split <;> split <;> rfl

theorem dispatchAt_core (t c : Int) (j : job_t) :
    (dispatchAt t c j).core_id = c := by
  rfl

/-- The statistics a freshly dispatched job ends up with, given the two
shapes a waiting job can have. -/
theorem dispatchAt_stats (t c : Int) (j : job_t)
    (h : (j.response_time = -1 ∧ j.wait_time = -1 ∧ j.start_wait = -1) ∨
      (0 ≤ j.response_time ∧ 0 ≤ j.wait_time ∧
        (j.start_wait = -1 ∨ (0 ≤ j.start_wait ∧ j.start_wait ≤ t))))
    (harr : j.arr_time ≤ t) :
    0 ≤ (dispatchAt t c j).response_time ∧
    0 ≤ (dispatchAt t c j).wait_time ∧
    (dispatchAt t c j).start_wait = -1 := by
  unfold dispatchAt
  dsimp only
  rcases h with ⟨h1, h2, h3⟩ | ⟨h1, h2, h3⟩ <;> split_ifs <;> simp_all <;> omega

/-- `selectNext` preserves the invariant: from the pre-dispatch state it
restores full well-formedness. -/
theorem selectNext_WF (s : SchedState) (t : Int) (c : Nat)
    (hpre : PreWF s t c) : WF (selectNext t c s).1 t := by
  obtain ⟨hclk, hcores, hlen, htot, hc_lt, hcv, hc_at, hqix, hnodup, hids,
    harr, hcompl, hrange, hinj, hcount, hrun, hidleJ, hturn⟩ := hpre
  have hclen : c < s.core_arr.length := by omega
  unfold selectNext
  cases hfd : qFind s.jobs (fun j => j.core_id = -1) s.queue with
  | none =>
    -- no ready job: the state is returned unchanged, and the target core
    -- must hold 0 (the quantum case always has a ready job)
    dsimp only
    have hnone := qFind_eq_none _ _ _ hfd
    have hc0 : s.core_arr.getD c 0 = 0 := by
      rcases hc_at with h | ⟨_, k, hk_mem, hk_core⟩
      · exact h
      · exact absurd hk_core (hnone k hk_mem)
    exact ⟨hclk, hcores, hlen, htot,
      fun i hi => by
        by_cases hic : i = c
        · subst hic; exact Or.inl hc0
        · exact hcv i hi hic,
      hqix, hnodup, hids, harr, hcompl, hrange, hinj, hcount, hrun, hidleJ, hturn⟩
  | some k =>
    dsimp only
    obtain ⟨hk_mem, hk_core⟩ := qFind_eq_some _ _ _ _ hfd
    have hk_lt : k < s.jobs.length := hqix k hk_mem
    have hcne : s.core_arr.getD c 0 ≠ 1 := by
      rcases hc_at with h | ⟨h, _⟩ <;> omega
    -- no queue member currently holds core c
    have hnoc : ∀ m ∈ s.queue, (s.jobs.getD m defJob).core_id ≠ (c : Int) := by
      intro m hm he
      rcases hrange m hm with h | ⟨h1, h2, h3⟩
      · rw [he] at h; omega
      · rw [he] at h3
        simp only [Int.toNat_natCast] at h3
        exact hcne h3
    refine ⟨hclk, hcores, ?_, ?_, ?_, ?_, hnodup, ?_, ?_, ?_, ?_, ?_, ?_, ?_, ?_, ?_⟩
    · simpa using hlen
    · simpa [updJob_length] using htot
    · -- hcv
      intro i hi
      simp only [List.length_set] at hi
      by_cases hic : i = c
      · subst hic
        rw [getD_set_self _ _ _ _ hclen]
        exact Or.inr rfl
      · rw [getD_set_ne _ _ _ _ _ (fun he => hic he.symm)]
        exact hcv i hi hic
    · -- hqix
      intro m hm
      rw [updJob_length]
      exact hqix m hm
    · -- hids
      intro m hm
      simp only [updJob_length] at hm
      by_cases hmk : m = k
      · subst hmk
        rw [updJob_getD_self _ _ _ hk_lt, dispatchAt_id]
        exact hids m hm
      · rw [updJob_getD_ne _ _ _ _ (Ne.symm hmk)]
        exact hids m hm
    · -- harr
      intro m hm
      simp only [updJob_length] at hm
      by_cases hmk : m = k
      · subst hmk
        rw [updJob_getD_self _ _ _ hk_lt, dispatchAt_arr]
        exact harr m hm
      · rw [updJob_getD_ne _ _ _ _ (Ne.symm hmk)]
        exact harr m hm
    · -- hcompl
      intro m hm
      simp only [updJob_length] at hm
      by_cases hmk : m = k
      · subst hmk
        rw [updJob_getD_self _ _ _ hk_lt, dispatchAt_turnover]
        exact hcompl m hm
      · rw [updJob_getD_ne _ _ _ _ (Ne.symm hmk)]
        exact hcompl m hm
    · -- hrange
      intro m hm
      by_cases hmk : m = k
      · subst hmk
        rw [updJob_getD_self _ _ _ hk_lt, dispatchAt_core]
        right
        refine ⟨by omega, by simpa using hc_lt, ?_⟩
        simp only [Int.toNat_natCast]
        exact getD_set_self _ _ _ _ hclen
      · rw [updJob_getD_ne _ _ _ _ (Ne.symm hmk)]
        rcases hrange m hm with h | ⟨h1, h2, h3⟩
        · exact Or.inl h
        · right
          refine ⟨h1, h2, ?_⟩
          rw [getD_set_ne]
          · exact h3
          · intro he
            apply hnoc m hm
            omega
    · -- hinj
      intro k1 hk1 k2 hk2 hne hcore1
      by_cases h1k : k1 = k
      · subst h1k
        rw [updJob_getD_self _ _ _ hk_lt, dispatchAt_core,
          updJob_getD_ne _ _ _ _ hne]
        intro he
        exact hnoc k2 hk2 he.symm
      · rw [updJob_getD_ne _ _ _ _ (Ne.symm h1k)] at hcore1 ⊢
        by_cases h2k : k2 = k
        · subst h2k
          rw [updJob_getD_self _ _ _ hk_lt, dispatchAt_core]
          exact hnoc k1 hk1
        · rw [updJob_getD_ne _ _ _ _ (Ne.symm h2k)]
          exact hinj k1 hk1 k2 hk2 hne hcore1
    · -- hcount
      show countBusy (s.core_arr.set c 1) =
        countAssigned (updJob s.jobs k (dispatchAt t (c : Int)))
      have hto : (s.jobs.getD k defJob).turnover_time = -1 :=
        (hcompl k hk_lt).1 hk_mem
      have hbusy : countBusy (s.core_arr.set c 1) = countBusy s.core_arr + 1 := by
        unfold countBusy
        exact countP_set_true _ _ _ _ 0 hclen (by simpa using hcne) (by simp)
      have hassigned : countAssigned (updJob s.jobs k (dispatchAt t (c : Int))) =
          countAssigned s.jobs + 1 := by
        unfold countAssigned updJob
        apply countP_set_true _ _ _ _ defJob hk_lt
        · simp only [decide_eq_false_iff_not, not_and, not_not]
          intro _
          exact hk_core
        · simp only [dispatchAt_turnover, dispatchAt_core, decide_eq_true_eq]
          refine ⟨hto, by omega⟩
      rw [hbusy, hassigned]
      unfold countBusy countAssigned at hcount
      unfold countBusy countAssigned
      omega
    · -- hrun
      intro m hm hcore
      by_cases hmk : m = k
      · subst hmk
        rw [updJob_getD_self _ _ _ hk_lt]
        exact dispatchAt_stats t (c : Int) _ (hidleJ m hm hk_core)
          (harr m hk_lt).2
      · rw [updJob_getD_ne _ _ _ _ (Ne.symm hmk)] at hcore ⊢
        exact hrun m hm hcore
    · -- hidleJ
      intro m hm hcore
      by_cases hmk : m = k
      · subst hmk
        rw [updJob_getD_self _ _ _ hk_lt, dispatchAt_core] at hcore
        omega
      · rw [updJob_getD_ne _ _ _ _ (Ne.symm hmk)] at hcore ⊢
        exact hidleJ m hm hcore
    · -- hturn
      intro hrr i hi
      by_cases hik : s.queue.getD i 0 = k
      · rw [hik, updJob_getD_self _ _ _ hk_lt, dispatchAt_turn, ← hik]
        exact hturn hrr i hi
      · rw [updJob_getD_ne _ _ _ _ (Ne.symm hik)]
        exact hturn hrr i hi

theorem newDispatchUpd_core (sch : scheme_t) (qlen core : Int) (j : job_t) :
    (newDispatchUpd sch qlen core j).core_id = core := by
  unfold newDispatchUpd
  dsimp only
  split <;> rfl

theorem newDispatchUpd_wait (sch : scheme_t) (qlen core : Int) (j : job_t) :
    (newDispatchUpd sch qlen core j).wait_time = 0 := by
  unfold newDispatchUpd
  dsimp only
  split <;> rfl

theorem newDispatchUpd_resp (sch : scheme_t) (qlen core : Int) (j : job_t) :
    (newDispatchUpd sch qlen core j).response_time = 0 := by
  unfold newDispatchUpd
  dsimp only
  split <;> rfl

theorem newDispatchUpd_sw (sch : scheme_t) (qlen core : Int) (j : job_t) :
    (newDispatchUpd sch qlen core j).start_wait = j.start_wait := by
  unfold newDispatchUpd
  dsimp only
  split <;> rfl

theorem newDispatchUpd_id (sch : scheme_t) (qlen core : Int) (j : job_t) :
    (newDispatchUpd sch qlen core j).id = j.id := by
  unfold newDispatchUpd
  dsimp only
  split <;> rfl

theorem newDispatchUpd_arr (sch : scheme_t) (qlen core : Int) (j : job_t) :
    (newDispatchUpd sch qlen core j).arr_time = j.arr_time := by
  unfold newDispatchUpd
  dsimp only
  split <;> rfl

theorem newDispatchUpd_turnover (sch : scheme_t) (qlen core : Int) (j : job_t) :
    (newDispatchUpd sch qlen core j).turnover_time = j.turnover_time := by
  unfold newDispatchUpd
  dsimp only
  split <;> rfl

theorem newDispatchUpd_turn_rr (sch : scheme_t) (qlen core : Int) (j : job_t)
    (h : sch = RR) : (newDispatchUpd sch qlen core j).turn = qlen := by
  unfold newDispatchUpd
  dsimp only
  rw [if_pos h]

theorem newDispatchUpd_turn_not_rr (sch : scheme_t) (qlen core : Int) (j : job_t)
    (h : sch ≠ RR) : (newDispatchUpd sch qlen core j).turn = j.turn := by
  unfold newDispatchUpd
  dsimp only
  rw [if_neg h]

theorem finishUpd_turnover (sch : scheme_t) (time : Int) (j : job_t) :
    (finishUpd sch time j).turnover_time = time - j.arr_time := by
  unfold finishUpd
  dsimp only
  split <;> rfl

theorem finishUpd_core (sch : scheme_t) (time : Int) (j : job_t) :
    (finishUpd sch time j).core_id = -1 := by
  unfold finishUpd
  dsimp only
  split <;> rfl

theorem finishUpd_id (sch : scheme_t) (time : Int) (j : job_t) :
    (finishUpd sch time j).id = j.id := by
  unfold finishUpd
  dsimp only
  split <;> rfl

theorem finishUpd_arr (sch : scheme_t) (time : Int) (j : job_t) :
    (finishUpd sch time j).arr_time = j.arr_time := by
  unfold finishUpd
  dsimp only
  split <;> rfl

theorem finishUpd_wait (sch : scheme_t) (time : Int) (j : job_t) :
    (finishUpd sch time j).wait_time = j.wait_time := by
  unfold finishUpd
  dsimp only
  split <;> rfl

theorem finishUpd_sw (sch : scheme_t) (time : Int) (j : job_t) :
    (finishUpd sch time j).start_wait = j.start_wait := by
  unfold finishUpd
  dsimp only
  split <;> rfl

theorem finishUpd_resp (sch : scheme_t) (time : Int) (j : job_t) :
    (finishUpd sch time j).response_time = j.response_time := by
  unfold finishUpd
  dsimp only
  split <;> rfl

theorem victimUpd_id (time : Int) (j : job_t) :
    (victimUpd time j).id = j.id := by
  unfold victimUpd yieldUpd
  dsimp only
  split <;> rfl

theorem victimUpd_arr (time : Int) (j : job_t) :
    (victimUpd time j).arr_time = j.arr_time := by
  unfold victimUpd yieldUpd
  dsimp only
  split <;> rfl

theorem victimUpd_turnover (time : Int) (j : job_t) :
    (victimUpd time j).turnover_time = j.turnover_time := by
  unfold victimUpd yieldUpd
  dsimp only
  split <;> rfl

theorem victimUpd_turn (time : Int) (j : job_t) :
    (victimUpd time j).turn = j.turn := by
  unfold victimUpd yieldUpd
  dsimp only
  split <;> rfl

theorem victimUpd_core (time : Int) (j : job_t) :
    (victimUpd time j).core_id = -1 := by
  unfold victimUpd yieldUpd
  dsimp only
  split <;> rfl

/-- The two statistics shapes a preemption victim can end up in. -/
theorem victimUpd_stats (time : Int) (j : job_t) :
    ((victimUpd time j).response_time = -1 ∧ (victimUpd time j).wait_time = -1 ∧
      (victimUpd time j).start_wait = -1) ∨
    ((victimUpd time j).response_time = j.response_time ∧
      (victimUpd time j).wait_time = j.wait_time ∧
      (victimUpd time j).start_wait = time) := by
  unfold victimUpd yieldUpd
  dsimp only
  split
  · exact Or.inl ⟨rfl, rfl, rfl⟩
  · exact Or.inr ⟨rfl, rfl, rfl⟩

theorem getD_replicate (n i : Nat) (a d : Int) (h : i < n) :
    (List.replicate n a).getD i d = a := by
  induction n generalizing i with
  | zero => omega
  | succ m ih =>
    cases i with
    | zero => rfl
    | succ i2 => simpa [List.replicate] using ih i2 (by omega)

theorem countBusy_replicate (n : Nat) : countBusy (List.replicate n 0) = 0 := by
  induction n with
  | zero => rfl
  | succ m ih => simpa [countBusy, List.replicate, List.countP_cons] using ih

/-- `renumberFrom` changes only the `turn` field of any slot. -/
theorem renumberFrom_turnOnly (reg : List job_t) (n : Int) (q : List Nat)
    (m : Nat) :
    ∃ r, (renumberFrom reg n q).getD m defJob =
      { reg.getD m defJob with turn := r } := by
  induction q generalizing reg n with
  | nil => exact ⟨(reg.getD m defJob).turn, rfl⟩
  | cons k ks ih =>
    simp only [renumberFrom]
    obtain ⟨r, hr⟩ := ih (updJob reg k fun j => { j with turn := n }) (n + 1)
    by_cases hkm : k = m
    · subst hkm
      by_cases hlt : k < reg.length
      · rw [hr, updJob_getD_self _ _ _ hlt]
        exact ⟨r, rfl⟩
      · rw [hr]
        unfold updJob
        rw [set_of_length_le _ _ _ (by omega)]
        exact ⟨r, rfl⟩
    · rw [hr, updJob_getD_ne _ _ _ _ hkm]
      exact ⟨r, rfl⟩

/-- `scheduler_start_up` establishes the invariant. -/
theorem wf_start (cores : Nat) (sc : scheme_t) (t0 : Int) (hc : 0 < cores)
    (ht : 0 ≤ t0) : WF (scheduler_start_up cores sc) t0 := by
  refine ⟨ht, hc, ?_, rfl, ?_, ?_, List.nodup_nil, ?_, ?_, ?_, ?_, ?_, ?_, ?_, ?_, ?_⟩
  · simp [scheduler_start_up]
  · intro i hi
    simp only [scheduler_start_up] at hi ⊢
    left
    exact getD_replicate _ _ _ _ (by simpa using hi)
  · intro k hk
    simp [scheduler_start_up] at hk
  · intro k hk
    simp [scheduler_start_up] at hk
  · intro m hm
    simp [scheduler_start_up] at hm
  · intro k hk
    simp [scheduler_start_up] at hk
  · intro k hk
    simp [scheduler_start_up] at hk
  · intro k1 hk1
    simp [scheduler_start_up] at hk1
  · show countBusy (List.replicate cores 0) = countAssigned []
    rw [countBusy_replicate]
    rfl
  · intro k hk
    simp [scheduler_start_up] at hk
  · intro k hk
    simp [scheduler_start_up] at hk
  · intro _ i hi
    simp [scheduler_start_up] at hi

/-- `scheduler_job_finished` preserves the invariant. -/
theorem wf_finished (s : SchedState) (clk t : Int) (c : Nat) (jn : Int)
    (hwf : WF s clk) (hct : clk ≤ t) (hc : c < s.numOfCores)
    (hex : ∃ k ∈ s.queue, (s.jobs.getD k defJob).id = jn ∧
      (s.jobs.getD k defJob).core_id = (c : Int) ∧
      t - (s.jobs.getD k defJob).wait_time - (s.jobs.getD k defJob).arr_time =
        (s.jobs.getD k defJob).duration) :
    WF (scheduler_job_finished s c jn t).1 t := by
  obtain ⟨hclk, hcores, hlen, htot, hcv, hqix, hnodup, hids, harr, hcompl,
    hrange, hinj, hcount, hrun, hidleJ, hturn⟩ := hwf
  obtain ⟨k0, hk0_mem, hk0_id, hk0_core, hk0_done⟩ := hex
  have hk0_lt : k0 < s.jobs.length := hqix _ hk0_mem
  have hjn : jn = (k0 : Int) := by
    rw [← hk0_id, hids _ hk0_lt]
  unfold scheduler_job_finished
  dsimp only
  cases hidx : qFindIdx s.jobs (fun j => j.id = jn) s.queue with
  | none =>
    exact absurd hk0_id (qFindIdx_eq_none _ _ _ hidx k0 hk0_mem)
  | some i =>
    dsimp only
    obtain ⟨hi_lt, hp, _⟩ := qFindIdx_eq_some _ _ _ _ hidx
    have hmem_i : s.queue.getD i 0 ∈ s.queue := getD_mem _ _ _ hi_lt
    have hqk : s.queue.getD i 0 = k0 := by
      have h1 := hids _ (hqix _ hmem_i)
      rw [h1] at hp
      omega
    rw [hqk]
    set reg1 := updJob s.jobs k0 (finishUpd s.sch t) with hreg1
    set q1 := removeAt s.queue i with hq1
    set reg2 := if s.sch = RR then renumber reg1 q1 else reg1 with hreg2
    apply selectNext_WF
    have hlen1 : reg1.length = s.jobs.length := by
      rw [hreg1, updJob_length]
    have hlen2 : reg2.length = s.jobs.length := by
      rw [hreg2]
      split
      · rw [renumber, renumberFrom_length, hlen1]
      · exact hlen1
    have hgetk0 : reg1.getD k0 defJob = finishUpd s.sch t (s.jobs.getD k0 defJob) := by
      rw [hreg1]
      exact updJob_getD_self _ _ _ hk0_lt
    have hget_ne : ∀ m, m ≠ k0 → reg1.getD m defJob = s.jobs.getD m defJob := by
      intro m hm
      rw [hreg1]
      exact updJob_getD_ne _ _ _ _ (Ne.symm hm)
    have hreg2_turnOnly : ∀ m, ∃ r, reg2.getD m defJob =
        { reg1.getD m defJob with turn := r } := by
      intro m
      rw [hreg2]
      split
      · exact renumberFrom_turnOnly _ _ _ m
      · exact ⟨(reg1.getD m defJob).turn, rfl⟩
    have hreg2_f : ∀ m, (reg2.getD m defJob).id = (reg1.getD m defJob).id ∧
        (reg2.getD m defJob).arr_time = (reg1.getD m defJob).arr_time ∧
        (reg2.getD m defJob).wait_time = (reg1.getD m defJob).wait_time ∧
        (reg2.getD m defJob).start_wait = (reg1.getD m defJob).start_wait ∧
        (reg2.getD m defJob).response_time = (reg1.getD m defJob).response_time ∧
        (reg2.getD m defJob).turnover_time = (reg1.getD m defJob).turnover_time ∧
        (reg2.getD m defJob).core_id = (reg1.getD m defJob).core_id := by
      intro m
      obtain ⟨r, hr⟩ := hreg2_turnOnly m
      rw [hr]
      exact ⟨rfl, rfl, rfl, rfl, rfl, rfl, rfl⟩
    have hq1_sub : ∀ a ∈ q1, a ∈ s.queue := by
      rw [hq1]
      exact removeAt_subset _ _
    have hq1_nodup : q1.Nodup := by
      rw [hq1]
      exact removeAt_nodup _ _ hnodup
    have hq1_mem_iff : ∀ a, a ∈ q1 ↔ a ∈ s.queue ∧ a ≠ k0 := by
      intro a
      rw [hq1, ← hqk]
      exact removeAt_mem_iff _ _ hnodup hi_lt a
    have hk0_notin : k0 ∉ q1 := fun hmem => ((hq1_mem_iff k0).1 hmem).2 rfl
    have harr_k0 := harr k0 hk0_lt
    have hto_k0 : (reg1.getD k0 defJob).turnover_time =
        t - (s.jobs.getD k0 defJob).arr_time := by
      rw [hgetk0, finishUpd_turnover]
    have hto_ne : (reg1.getD k0 defJob).turnover_time ≠ -1 := by
      rw [hto_k0]
      omega
    have hc_len : c < s.core_arr.length := by omega
    have hbusy_c : s.core_arr.getD c 0 = 1 := by
      rcases hrange k0 hk0_mem with h | ⟨h1, h2, h3⟩
      · rw [hk0_core] at h
        omega
      · rw [hk0_core] at h3
        simpa using h3
    refine ⟨by omega, hcores, ?_, ?_, hc, ?_, ?_, ?_, hq1_nodup, ?_, ?_, ?_, ?_,
      ?_, ?_, ?_, ?_, ?_⟩
    · -- hlen
      simpa using hlen
    · -- htot
      show reg2.length = s.totalJobs
      rw [hlen2]
      exact htot
    · -- hcv for i ≠ c
      intro i2 hi2 hic
      simp only [List.length_set] at hi2
      rw [getD_set_ne _ _ _ _ _ (fun he => hic he.symm)]
      exact hcv i2 hi2
    · -- hc_at
      left
      exact getD_set_self _ _ _ _ hc_len
    · -- hqix
      intro m hm
      rw [hlen2]
      exact hqix m (hq1_sub m hm)
    · -- hids
      intro m hm
      rw [hlen2] at hm
      rw [(hreg2_f m).1]
      by_cases hmk : m = k0
      · subst hmk
        rw [hgetk0, finishUpd_id]
        exact hids m hm
      · rw [hget_ne m hmk]
        exact hids m hm
    · -- harr
      intro m hm
      rw [hlen2] at hm
      rw [(hreg2_f m).2.1]
      have hb := harr m hm
      by_cases hmk : m = k0
      · subst hmk
        rw [hgetk0, finishUpd_arr]
        omega
      · rw [hget_ne m hmk]
        omega
    · -- hcompl
      intro m hm
      rw [hlen2] at hm
      rw [(hreg2_f m).2.2.2.2.2.1]
      by_cases hmk : m = k0
      · subst hmk
        constructor
        · intro hmem
          exact absurd hmem hk0_notin
        · intro hto
          exact absurd hto hto_ne
      · rw [hget_ne m hmk, hq1_mem_iff]
        constructor
        · intro ⟨h1, _⟩
          exact (hcompl m hm).1 h1
        · intro h1
          exact ⟨(hcompl m hm).2 h1, hmk⟩
    · -- hrange
      intro m hm
      rw [(hreg2_f m).2.2.2.2.2.2]
      have hm_q : m ∈ s.queue := hq1_sub m hm
      have hmk : m ≠ k0 := ((hq1_mem_iff m).1 hm).2
      rw [hget_ne m hmk]
      rcases hrange m hm_q with h | ⟨h1, h2, h3⟩
      · exact Or.inl h
      · right
        refine ⟨h1, h2, ?_⟩
        rw [getD_set_ne]
        · exact h3
        · intro he
          have hcne2 : (s.jobs.getD m defJob).core_id ≠ (s.jobs.getD k0 defJob).core_id :=
            hinj m hm_q k0 hk0_mem hmk (by omega)
          rw [hk0_core] at hcne2
          omega
    · -- hinj
      intro m1 hm1 m2 hm2 hne hcore1
      rw [(hreg2_f m1).2.2.2.2.2.2] at hcore1 ⊢
      rw [(hreg2_f m2).2.2.2.2.2.2]
      rw [hget_ne m1 ((hq1_mem_iff m1).1 hm1).2] at hcore1 ⊢
      rw [hget_ne m2 ((hq1_mem_iff m2).1 hm2).2]
      exact hinj m1 (hq1_sub m1 hm1) m2 (hq1_sub m2 hm2) hne hcore1
    · -- hcount
      show countBusy (s.core_arr.set c 0) = countAssigned reg2
      have hb2 : countBusy (s.core_arr.set c 0) + 1 = countBusy s.core_arr := by
        unfold countBusy
        exact countP_set_false _ _ _ _ 0 hc_len (by rw [hbusy_c]; rfl) (by simp)
      have ha2 : countAssigned reg2 = countAssigned reg1 := by
        rw [hreg2]
        split
        · rw [renumber, countAssigned_renumberFrom]
        · rfl
      have ha1 : countAssigned reg1 + 1 = countAssigned s.jobs := by
        rw [hreg1]
        unfold countAssigned updJob
        apply countP_set_false _ _ _ _ defJob hk0_lt
        · simp only [decide_eq_true_eq]
          refine ⟨(hcompl k0 hk0_lt).1 hk0_mem, ?_⟩
          rw [hk0_core]
          omega
        · simp only [decide_eq_false_iff_not, not_and, not_not]
          intro hcontra
          exact absurd hcontra (by
            rw [finishUpd_turnover]
            omega)
      rw [ha2]
      omega
    · -- hrun
      intro m hm hcore
      have hmk : m ≠ k0 := ((hq1_mem_iff m).1 hm).2
      rw [(hreg2_f m).2.2.2.2.2.2, hget_ne m hmk] at hcore
      rw [(hreg2_f m).2.2.1, (hreg2_f m).2.2.2.1, (hreg2_f m).2.2.2.2.1,
        hget_ne m hmk]
      exact hrun m (hq1_sub m hm) hcore
    · -- hidleJ
      intro m hm hcore
      have hmk : m ≠ k0 := ((hq1_mem_iff m).1 hm).2
      rw [(hreg2_f m).2.2.2.2.2.2, hget_ne m hmk] at hcore
      rw [(hreg2_f m).2.2.1, (hreg2_f m).2.2.2.1, (hreg2_f m).2.2.2.2.1,
        hget_ne m hmk]
      rcases hidleJ m (hq1_sub m hm) hcore with h | ⟨h1, h2, h3⟩
      · exact Or.inl h
      · right
        refine ⟨h1, h2, ?_⟩
        rcases h3 with h3 | h3
        · exact Or.inl h3
        · right
          omega
    · -- hturn
      intro hrr i2 hi2
      rw [hreg2, if_pos hrr] at hi2 ⊢
      have hmem2 : q1.getD i2 0 ∈ q1 := getD_mem _ _ _ hi2
      have hlt2 : q1.getD i2 0 < reg1.length := by
        rw [hlen1]
        exact hqix _ (hq1_sub _ hmem2)
      rw [renumber, renumberFrom_getD_mem _ _ _ _ hq1_nodup hi2 hlt2]
      simp

theorem mem_exists_getD {α : Type} (l : List α) (a d : α) (h : a ∈ l) :
    ∃ i, i < l.length ∧ l.getD i d = a := by
  induction l with
  | nil => simp at h
  | cons x xs ih =>
    rcases List.mem_cons.1 h with h1 | h1
    · exact ⟨0, by simp, by simp [h1.symm]⟩
    · obtain ⟨i, hi, he⟩ := ih h1
      exact ⟨i + 1, by simpa using hi, by simpa using he⟩

/-- `scheduler_quantum_expired` preserves the invariant (under RR, with a
running job on the expired core). -/
theorem wf_quantum (s : SchedState) (clk t : Int) (c : Nat)
    (hwf : WF s clk) (hct : clk ≤ t) (hc : c < s.numOfCores)
    (hrr : s.sch = RR)
    (hex : ∃ k ∈ s.queue, (s.jobs.getD k defJob).core_id = (c : Int)) :
    WF (scheduler_quantum_expired s c t).1 t := by
  obtain ⟨hclk, hcores, hlen, htot, hcv, hqix, hnodup, hids, harr, hcompl,
    hrange, hinj, hcount, hrun, hidleJ, hturn⟩ := hwf
  obtain ⟨k0, hk0_mem, hk0_core⟩ := hex
  unfold scheduler_quantum_expired
  dsimp only
  cases hidx : qFindIdx s.jobs (fun j => j.core_id = ((c : Nat) : Int)) s.queue with
  | none =>
    exact absurd hk0_core (qFindIdx_eq_none _ _ _ hidx k0 hk0_mem)
  | some i =>
    dsimp only
    obtain ⟨hi_lt, hp, _⟩ := qFindIdx_eq_some _ _ _ _ hidx
    set k1 := s.queue.getD i 0 with hk1
    have hmem_1 : k1 ∈ s.queue := getD_mem _ _ _ hi_lt
    have hlt_1 : k1 < s.jobs.length := hqix _ hmem_1
    set reg1 := updJob s.jobs k1 (yieldUpd t) with hreg1
    set q1 := removeAt s.queue i with hq1
    set reg2 := updJob reg1 k1 (setTurn (q1.length : Int)) with hreg2
    set reg3 := renumber reg2 q1 with hreg3
    apply selectNext_WF
    have hlen1 : reg1.length = s.jobs.length := by
      rw [hreg1, updJob_length]
    have hlen2 : reg2.length = s.jobs.length := by
      rw [hreg2, updJob_length, hlen1]
    have hlen3 : reg3.length = s.jobs.length := by
      rw [hreg3, renumber, renumberFrom_length, hlen2]
    have hq1_sub : ∀ a ∈ q1, a ∈ s.queue := by
      rw [hq1]
      exact removeAt_subset _ _
    have hq1_nodup : q1.Nodup := by
      rw [hq1]
      exact removeAt_nodup _ _ hnodup
    have hq1_mem_iff : ∀ a, a ∈ q1 ↔ a ∈ s.queue ∧ a ≠ k1 := by
      intro a
      rw [hq1]
      exact removeAt_mem_iff _ _ hnodup hi_lt a
    have hk1_notin : k1 ∉ q1 := fun hmem => ((hq1_mem_iff k1).1 hmem).2 rfl
    -- registry lookups
    have hget1_k : reg1.getD k1 defJob = yieldUpd t (s.jobs.getD k1 defJob) := by
      rw [hreg1]
      exact updJob_getD_self _ _ _ hlt_1
    have hget1_ne : ∀ m, m ≠ k1 → reg1.getD m defJob = s.jobs.getD m defJob := by
      intro m hm
      rw [hreg1]
      exact updJob_getD_ne _ _ _ _ (Ne.symm hm)
    have hget3_k : reg3.getD k1 defJob =
        setTurn (q1.length : Int) (yieldUpd t (s.jobs.getD k1 defJob)) := by
      rw [hreg3, renumber, renumberFrom_getD_not_mem _ _ _ _ hk1_notin, hreg2,
        updJob_getD_self _ _ _ (by omega), hget1_k]
    have hget3_ne : ∀ m, m ≠ k1 → ∃ r, reg3.getD m defJob =
        { s.jobs.getD m defJob with turn := r } := by
      intro m hm
      obtain ⟨r, hr⟩ := renumberFrom_turnOnly reg2 0 q1 m
      refine ⟨r, ?_⟩
      rw [hreg3, renumber, hr, hreg2, updJob_getD_ne _ _ _ _ (Ne.symm hm),
        hget1_ne m hm]
    -- the requeued job sits in the final queue with core cleared
    have hkq2 : k1 ∈ (pqOffer (comparer s.sch) reg3 k1 q1).1 :=
      (pqOffer_mem _ _ _ _ _).2 (Or.inl rfl)
    have hk_core3 : (reg3.getD k1 defJob).core_id = -1 := by
      rw [hget3_k]
      rfl
    -- turns after renumbering: rank i2 of q1 has turn i2, k1 has turn q1.length
    have hturn3 : ∀ i2, i2 < q1.length →
        (reg3.getD (q1.getD i2 0) defJob).turn = (i2 : Int) := by
      intro i2 hi2
      have hlt2 : q1.getD i2 0 < reg2.length := by
        rw [hlen2]
        exact hqix _ (hq1_sub _ (getD_mem _ _ _ hi2))
      rw [hreg3, renumber, renumberFrom_getD_mem _ _ _ _ hq1_nodup hi2 hlt2]
      simp
    have hkturn3 : (reg3.getD k1 defJob).turn = (q1.length : Int) := by
      rw [hget3_k]
      rfl
    -- under the RR comparator the requeued job goes to the end of the queue
    have hoffer : (pqOffer (comparer s.sch) reg3 k1 q1).1 = q1 ++ [k1] ∧
        (pqOffer (comparer s.sch) reg3 k1 q1).2 = q1.length := by
      apply pqOffer_append_of_ge
      intro y hy
      obtain ⟨iy, hiy, hiy_eq⟩ := mem_exists_getD q1 y 0 hy
      rw [hrr]
      show ¬ compare4 (reg3.getD k1 defJob) (reg3.getD y defJob) < 0
      unfold compare4
      rw [hkturn3, ← hiy_eq, hturn3 iy hiy]
      omega
    have hbusy_c : s.core_arr.getD c 0 = 1 := by
      rcases hrange k1 hmem_1 with h | ⟨h1, h2, h3⟩
      · rw [hp] at h
        omega
      · rw [hp] at h3
        simpa using h3
    have hc_len : c < s.core_arr.length := by omega
    have hq2_mem : ∀ a, a ∈ (pqOffer (comparer s.sch) reg3 k1 q1).1 ↔
        (a = k1 ∨ a ∈ q1) := fun a => pqOffer_mem _ _ _ _ _
    refine ⟨by omega, hcores, ?_, ?_, hc, ?_, ?_, ?_, ?_, ?_, ?_, ?_, ?_,
      ?_, ?_, ?_, ?_, ?_⟩
    · -- hlen
      simpa using hlen
    · -- htot
      show reg3.length = s.totalJobs
      rw [hlen3]
      exact htot
    · -- hcv for i ≠ c
      intro i2 hi2 hic
      simp only [List.length_set] at hi2
      rw [getD_set_ne _ _ _ _ _ (fun he => hic he.symm)]
      exact hcv i2 hi2
    · -- hc_at: core holds -1 but the requeued job is ready
      right
      refine ⟨getD_set_self _ _ _ _ hc_len, k1, hkq2, hk_core3⟩
    · -- hqix
      intro m hm
      rw [hlen3]
      rcases (hq2_mem m).1 hm with h | h
      · exact h ▸ hlt_1
      · exact hqix m (hq1_sub m h)
    · -- hnodup
      rw [hoffer.1]
      have hperm : List.Perm (q1 ++ [k1]) (k1 :: q1) := List.perm_append_comm
      rw [List.Perm.nodup_iff hperm]
      exact List.nodup_cons.2 ⟨hk1_notin, hq1_nodup⟩
    · -- hids
      intro m hm
      rw [hlen3] at hm
      by_cases hmk : m = k1
      · subst hmk
        rw [hget3_k]
        show (yieldUpd t (s.jobs.getD k1 defJob)).id = (k1 : Int)
        rw [show (yieldUpd t (s.jobs.getD k1 defJob)).id =
          (s.jobs.getD k1 defJob).id from rfl]
        exact hids k1 hm
      · obtain ⟨r, hr⟩ := hget3_ne m hmk
        rw [hr]
        exact hids m hm
    · -- harr
      intro m hm
      rw [hlen3] at hm
      have hb := harr m hm
      by_cases hmk : m = k1
      · subst hmk
        rw [hget3_k]
        show 0 ≤ (s.jobs.getD k1 defJob).arr_time ∧ (s.jobs.getD k1 defJob).arr_time ≤ t
        omega
      · obtain ⟨r, hr⟩ := hget3_ne m hmk
        rw [hr]
        show 0 ≤ (s.jobs.getD m defJob).arr_time ∧ (s.jobs.getD m defJob).arr_time ≤ t
        omega
    · -- hcompl
      intro m hm
      rw [hlen3] at hm
      rw [hq2_mem m]
      by_cases hmk : m = k1
      · subst hmk
        rw [hget3_k]
        show _ ↔ (s.jobs.getD k1 defJob).turnover_time = -1
        constructor
        · intro _
          exact (hcompl k1 hm).1 hmem_1
        · intro _
          exact Or.inl rfl
      · obtain ⟨r, hr⟩ := hget3_ne m hmk
        rw [hr]
        show _ ↔ (s.jobs.getD m defJob).turnover_time = -1
        rw [hq1_mem_iff]
        constructor
        · intro h
          rcases h with h | ⟨h, _⟩
          · exact absurd h hmk
          · exact (hcompl m hm).1 h
        · intro h
          exact Or.inr ⟨(hcompl m hm).2 h, hmk⟩
    · -- hrange
      intro m hm
      rcases (hq2_mem m).1 hm with h | h
      · subst h
        left
        exact hk_core3
      · have hmk : m ≠ k1 := ((hq1_mem_iff m).1 h).2
        obtain ⟨r, hr⟩ := hget3_ne m hmk
        rw [hr]
        show (s.jobs.getD m defJob).core_id = -1 ∨ _
        rcases hrange m (hq1_sub m h) with h2 | ⟨h1, h2, h3⟩
        · exact Or.inl h2
        · right
          refine ⟨h1, h2, ?_⟩
          rw [getD_set_ne]
          · exact h3
          · intro he
            dsimp only at he
            have hcne2 : (s.jobs.getD m defJob).core_id ≠
                (s.jobs.getD k1 defJob).core_id :=
              hinj m (hq1_sub m h) k1 hmem_1 hmk (by omega)
            rw [hp] at hcne2
            omega
    · -- hinj
      intro m1 hm1 m2 hm2 hne hcore1
      have hget : ∀ m, m ∈ (pqOffer (comparer s.sch) reg3 k1 q1).1 →
          (reg3.getD m defJob).core_id = -1 ∨
          ((reg3.getD m defJob).core_id = (s.jobs.getD m defJob).core_id ∧ m ≠ k1) := by
        intro m hm
        rcases (hq2_mem m).1 hm with h | h
        · subst h
          exact Or.inl hk_core3
        · have hmk : m ≠ k1 := ((hq1_mem_iff m).1 h).2
          obtain ⟨r, hr⟩ := hget3_ne m hmk
          rw [hr]
          exact Or.inr ⟨rfl, hmk⟩
      rcases hget m1 hm1 with h1 | ⟨h1, hm1k⟩
      · exact absurd h1 hcore1
      · rcases hget m2 hm2 with h2 | ⟨h2, hm2k⟩
        · rw [h1, h2]
          rw [h1] at hcore1
          have hm1q : m1 ∈ s.queue := by
            rcases (hq2_mem m1).1 hm1 with h | h
            · exact absurd h hm1k
            · exact hq1_sub m1 h
          rcases hrange m1 hm1q with h3 | ⟨h3, _, _⟩
          · exact absurd h3 hcore1
          · omega
        · rw [h1, h2]
          rw [h1] at hcore1
          have hm1q : m1 ∈ s.queue := by
            rcases (hq2_mem m1).1 hm1 with h | h
            · exact absurd h hm1k
            · exact hq1_sub m1 h
          have hm2q : m2 ∈ s.queue := by
            rcases (hq2_mem m2).1 hm2 with h | h
            · exact absurd h hm2k
            · exact hq1_sub m2 h
          exact hinj m1 hm1q m2 hm2q hne hcore1
    · -- hcount
      show countBusy (s.core_arr.set c (-1)) = countAssigned reg3
      have hb2 : countBusy (s.core_arr.set c (-1)) + 1 = countBusy s.core_arr := by
        unfold countBusy
        exact countP_set_false _ _ _ _ 0 hc_len (by rw [hbusy_c]; rfl) (by simp)
      have ha3 : countAssigned reg3 = countAssigned reg2 := by
        rw [hreg3, renumber, countAssigned_renumberFrom]
      have ha2 : countAssigned reg2 = countAssigned reg1 := by
        rw [hreg2]
        apply countAssigned_updJob_keep
        intro j
        exact Iff.rfl
      have ha1 : countAssigned reg1 + 1 = countAssigned s.jobs := by
        rw [hreg1]
        unfold countAssigned updJob
        apply countP_set_false _ _ _ _ defJob hlt_1
        · simp only [decide_eq_true_eq]
          refine ⟨(hcompl k1 hlt_1).1 hmem_1, ?_⟩
          rw [hp]
          omega
        · simp only [decide_eq_false_iff_not, not_and, not_not]
          intro _
          rfl
      rw [ha3, ha2]
      omega
    · -- hrun
      intro m hm hcore
      rcases (hq2_mem m).1 hm with h | h
      · subst h
        rw [hk_core3] at hcore
        omega
      · have hmk : m ≠ k1 := ((hq1_mem_iff m).1 h).2
        obtain ⟨r, hr⟩ := hget3_ne m hmk
        rw [hr] at hcore ⊢
        exact hrun m (hq1_sub m h) hcore
    · -- hidleJ
      intro m hm hcore
      rcases (hq2_mem m).1 hm with h | h
      · subst h
        rw [hget3_k]
        have hstats := hrun k1 hmem_1 (by rw [hp]; omega)
        right
        show 0 ≤ (s.jobs.getD k1 defJob).response_time ∧
          0 ≤ (s.jobs.getD k1 defJob).wait_time ∧ ((t : Int) = -1 ∨ (0 ≤ t ∧ t ≤ t))
        refine ⟨hstats.1, hstats.2.1, Or.inr ⟨by omega, le_refl t⟩⟩
      · have hmk : m ≠ k1 := ((hq1_mem_iff m).1 h).2
        obtain ⟨r, hr⟩ := hget3_ne m hmk
        rw [hr] at hcore ⊢
        dsimp only at hcore ⊢
        rcases hidleJ m (hq1_sub m h) hcore with h2 | ⟨h1, h2, h3⟩
        · exact Or.inl h2
        · right
          refine ⟨h1, h2, ?_⟩
          rcases h3 with h3 | h3
          · exact Or.inl h3
          · right
            omega
    · -- hturn
      intro _ i2 hi2
      rw [hoffer.1] at hi2 ⊢
      simp only [List.length_append, List.length_cons, List.length_nil] at hi2
      by_cases hlt : i2 < q1.length
      · rw [getD_append_lt _ _ _ _ hlt]
        exact hturn3 i2 hlt
      · have hi2e : i2 = q1.length := by omega
        subst hi2e
        rw [getD_append_length]
        exact hkturn3

theorem firstIdle_some_spec (l : List Int) (i : Nat) (h : firstIdle l = some i) :
    i < l.length ∧ l.getD i 0 = 0 := by
  induction l generalizing i with
  | nil => simp [firstIdle] at h
  | cons v vs ih =>
    simp only [firstIdle] at h
    split at h
    · rename_i hv
      cases h
      exact ⟨by simp, by simpa using hv⟩
    · rw [Option.map_eq_some'] at h
      obtain ⟨n, hn, rfl⟩ := h
      obtain ⟨h1, h2⟩ := ih n hn
      exact ⟨by simpa using h1, by simpa using h2⟩

/-- Under the RR comparator, an element whose `turn` equals the queue size
is appended after members whose `turn` equals their rank. -/
theorem rr_offer_end (reg : List job_t) (q : List Nat) (x : Nat)
    (hturnq : ∀ i, i < q.length → (reg.getD (q.getD i 0) defJob).turn = (i : Int))
    (hxturn : (reg.getD x defJob).turn = (q.length : Int)) :
    (pqOffer compare4 reg x q).1 = q ++ [x] ∧
      (pqOffer compare4 reg x q).2 = q.length := by
  apply pqOffer_append_of_ge
  intro y hy
  obtain ⟨iy, hiy, hiy_eq⟩ := mem_exists_getD q y 0 hy
  unfold compare4
  rw [hxturn, ← hiy_eq, hturnq iy hiy]
  omega

/-- `scheduler_new_job` preserves the invariant: idle-core branch. -/
theorem wf_new_job_idle (s : SchedState) (clk t r p jn : Int) (i : Nat)
    (hwf : WF s clk) (hct : clk ≤ t) (hjn : jn = (s.totalJobs : Int))
    (hfi : firstIdle s.core_arr = some i) :
    WF (scheduler_new_job s jn t r p).1 t := by
  obtain ⟨hclk, hcores, hlen, htot, hcv, hqix, hnodup, hids, harr, hcompl,
    hrange, hinj, hcount, hrun, hidleJ, hturn⟩ := hwf
  obtain ⟨hi_lt, hi_idle⟩ := firstIdle_some_spec _ _ hfi
  simp only [scheduler_new_job, hfi]
  set newIdx := s.jobs.length with hni
  set reg0 := s.jobs ++ [newJobInit jn t r p] with hreg0
  set reg1 := updateActive t reg0 s.queue with hreg1
  set reg2 := updJob reg1 newIdx
    (newDispatchUpd s.sch (s.queue.length : Int) (i : Int)) with hreg2
  have hlen0 : reg0.length = newIdx + 1 := by
    rw [hreg0, List.length_append]
    rfl
  have hlen1 : reg1.length = newIdx + 1 := by
    rw [hreg1, updateActive_length, hlen0]
  have hlen2 : reg2.length = newIdx + 1 := by
    rw [hreg2, updJob_length, hlen1]
  have hf : ∀ m, m < s.jobs.length →
      (reg1.getD m defJob).id = (s.jobs.getD m defJob).id ∧
      (reg1.getD m defJob).arr_time = (s.jobs.getD m defJob).arr_time ∧
      (reg1.getD m defJob).duration = (s.jobs.getD m defJob).duration ∧
      (reg1.getD m defJob).priority = (s.jobs.getD m defJob).priority ∧
      (reg1.getD m defJob).wait_time = (s.jobs.getD m defJob).wait_time ∧
      (reg1.getD m defJob).start_wait = (s.jobs.getD m defJob).start_wait ∧
      (reg1.getD m defJob).response_time = (s.jobs.getD m defJob).response_time ∧
      (reg1.getD m defJob).turnover_time = (s.jobs.getD m defJob).turnover_time ∧
      (reg1.getD m defJob).turn = (s.jobs.getD m defJob).turn ∧
      (reg1.getD m defJob).core_id = (s.jobs.getD m defJob).core_id := by
    intro m hm
    apply statsOf_ext
    rw [hreg1, updateActive_statsOf, hreg0, getD_append_lt _ _ _ _ hm]
  have hg : (reg1.getD newIdx defJob).id = (newJobInit jn t r p).id ∧
      (reg1.getD newIdx defJob).arr_time = (newJobInit jn t r p).arr_time ∧
      (reg1.getD newIdx defJob).duration = (newJobInit jn t r p).duration ∧
      (reg1.getD newIdx defJob).priority = (newJobInit jn t r p).priority ∧
      (reg1.getD newIdx defJob).wait_time = (newJobInit jn t r p).wait_time ∧
      (reg1.getD newIdx defJob).start_wait = (newJobInit jn t r p).start_wait ∧
      (reg1.getD newIdx defJob).response_time = (newJobInit jn t r p).response_time ∧
      (reg1.getD newIdx defJob).turnover_time = (newJobInit jn t r p).turnover_time ∧
      (reg1.getD newIdx defJob).turn = (newJobInit jn t r p).turn ∧
      (reg1.getD newIdx defJob).core_id = (newJobInit jn t r p).core_id := by
    apply statsOf_ext
    rw [hreg1, updateActive_statsOf, hreg0, getD_append_length]
  have hnew2 : reg2.getD newIdx defJob =
      newDispatchUpd s.sch (s.queue.length : Int) (i : Int) (reg1.getD newIdx defJob) := by
    rw [hreg2]
    exact updJob_getD_self _ _ _ (by omega)
  have hmem2 : ∀ m, m ≠ newIdx → reg2.getD m defJob = reg1.getD m defJob := by
    intro m hm
    rw [hreg2]
    exact updJob_getD_ne _ _ _ _ (Ne.symm hm)
  have hqlt : ∀ k, k ∈ s.queue → k ≠ newIdx := by
    intro k hk he
    have := hqix k hk
    omega
  have hq2m : ∀ a, a ∈ (pqOffer (comparer s.sch) reg2 newIdx s.queue).1 ↔
      (a = newIdx ∨ a ∈ s.queue) := fun a => pqOffer_mem _ _ _ _ _
  have hmemcore : ∀ m, m ∈ s.queue → (s.jobs.getD m defJob).core_id ≠ (i : Int) := by
    intro m hm he
    rcases hrange m hm with h | ⟨h1, h2, h3⟩
    · rw [he] at h
      omega
    · rw [he] at h3
      simp only [Int.toNat_natCast] at h3
      rw [hi_idle] at h3
      exact absurd h3 (by decide)
  refine ⟨by omega, hcores, ?_, ?_, ?_, ?_, ?_, ?_, ?_, ?_, ?_, ?_, ?_, ?_, ?_, ?_⟩
  · -- hlen
    simpa using hlen
  · -- htot
    show reg2.length = s.totalJobs + 1
    omega
  · -- hcv
    intro i2 hi2
    simp only [List.length_set] at hi2
    by_cases hic : i2 = i
    · subst hic
      rw [getD_set_self _ _ _ _ hi_lt]
      exact Or.inr rfl
    · rw [getD_set_ne _ _ _ _ _ (fun he => hic he.symm)]
      exact hcv i2 hi2
  · -- hqix
    intro m hm
    rw [hlen2]
    rcases (hq2m m).1 hm with h | h
    · omega
    · have := hqix m h
      omega
  · -- hnodup
    apply pqOffer_nodup
    · intro hmem
      exact (hqlt _ hmem) rfl
    · exact hnodup
  · -- hids
    intro m hm
    rw [hlen2] at hm
    by_cases hmn : m = newIdx
    · subst hmn
      rw [hnew2, newDispatchUpd_id, hg.1]
      show jn = (newIdx : Int)
      omega
    · rw [hmem2 m hmn, (hf m (by omega)).1]
      exact hids m (by omega)
  · -- harr
    intro m hm
    rw [hlen2] at hm
    by_cases hmn : m = newIdx
    · subst hmn
      rw [hnew2, newDispatchUpd_arr, hg.2.1]
      show 0 ≤ t ∧ t ≤ t
      omega
    · rw [hmem2 m hmn, (hf m (by omega)).2.1]
      have := harr m (by omega)
      omega
  · -- hcompl
    intro m hm
    rw [hlen2] at hm
    rw [hq2m m]
    by_cases hmn : m = newIdx
    · subst hmn
      rw [hnew2, newDispatchUpd_turnover]
      constructor
      · intro _
        exact hg.2.2.2.2.2.2.2.1
      · intro _
        exact Or.inl rfl
    · rw [hmem2 m hmn, (hf m (by omega)).2.2.2.2.2.2.2.1]
      constructor
      · intro h
        rcases h with h | h
        · exact absurd h hmn
        · exact (hcompl m (by omega)).1 h
      · intro h
        exact Or.inr ((hcompl m (by omega)).2 h)
  · -- hrange
    intro m hm
    by_cases hmn : m = newIdx
    · subst hmn
      rw [hnew2, newDispatchUpd_core]
      right
      refine ⟨by omega, ?_, ?_⟩
      · simp only [Int.toNat_natCast]
        omega
      · simp only [Int.toNat_natCast]
        exact getD_set_self _ _ _ _ hi_lt
    · have hmq : m ∈ s.queue := by
        rcases (hq2m m).1 hm with h | h
        · exact absurd h hmn
        · exact h
      rw [hmem2 m hmn, (hf m (hqix m hmq)).2.2.2.2.2.2.2.2.2]
      rcases hrange m hmq with h | ⟨h1, h2, h3⟩
      · exact Or.inl h
      · right
        refine ⟨h1, h2, ?_⟩
        rw [getD_set_ne]
        · exact h3
        · intro he
          apply hmemcore m hmq
          omega
  · -- hinj
    intro m1 hm1 m2 hm2 hne hcore1
    by_cases h1n : m1 = newIdx
    · subst h1n
      rw [hnew2, newDispatchUpd_core] at hcore1 ⊢
      have hm2q : m2 ∈ s.queue := by
        rcases (hq2m m2).1 hm2 with h | h
        · exact absurd h.symm hne
        · exact h
      rw [hmem2 m2 (hqlt m2 hm2q), (hf m2 (hqix m2 hm2q)).2.2.2.2.2.2.2.2.2]
      intro he
      exact hmemcore m2 hm2q he.symm
    · have hm1q : m1 ∈ s.queue := by
        rcases (hq2m m1).1 hm1 with h | h
        · exact absurd h h1n
        · exact h
      rw [hmem2 m1 h1n, (hf m1 (hqix m1 hm1q)).2.2.2.2.2.2.2.2.2] at hcore1 ⊢
      by_cases h2n : m2 = newIdx
      · subst h2n
        rw [hnew2, newDispatchUpd_core]
        exact hmemcore m1 hm1q
      · have hm2q : m2 ∈ s.queue := by
          rcases (hq2m m2).1 hm2 with h | h
          · exact absurd h h2n
          · exact h
        rw [hmem2 m2 h2n, (hf m2 (hqix m2 hm2q)).2.2.2.2.2.2.2.2.2]
        exact hinj m1 hm1q m2 hm2q hne hcore1
  · -- hcount
    show countBusy (s.core_arr.set i 1) = countAssigned reg2
    have hb2 : countBusy (s.core_arr.set i 1) = countBusy s.core_arr + 1 := by
      unfold countBusy
      exact countP_set_true _ _ _ _ 0 hi_lt (by rw [hi_idle]; rfl) (by simp)
    have ha2 : countAssigned reg2 = countAssigned reg1 + 1 := by
      rw [hreg2]
      unfold countAssigned updJob
      apply countP_set_true _ _ _ _ defJob (by omega)
      · simp only [decide_eq_false_iff_not, not_and, not_not]
        intro _
        exact hg.2.2.2.2.2.2.2.2.2
      · simp only [decide_eq_true_eq, newDispatchUpd_turnover, newDispatchUpd_core]
        refine ⟨hg.2.2.2.2.2.2.2.1, by omega⟩
    have ha1 : countAssigned reg1 = countAssigned s.jobs := by
      rw [hreg1, countAssigned_updateActive, hreg0, countAssigned_append]
      intro ⟨_, hcontra⟩
      exact hcontra rfl
    rw [hb2, ha2, ha1, hcount]
  · -- hrun
    intro m hm hcore
    by_cases hmn : m = newIdx
    · subst hmn
      rw [hnew2, newDispatchUpd_resp, newDispatchUpd_wait, newDispatchUpd_sw]
      exact ⟨le_refl 0, le_refl 0, hg.2.2.2.2.2.1⟩
    · have hmq : m ∈ s.queue := by
        rcases (hq2m m).1 hm with h | h
        · exact absurd h hmn
        · exact h
      have hfm := hf m (hqix m hmq)
      rw [hmem2 m hmn] at hcore ⊢
      rw [hfm.2.2.2.2.2.2.2.2.2] at hcore
      rw [hfm.2.2.2.2.1, hfm.2.2.2.2.2.1, hfm.2.2.2.2.2.2.1]
      exact hrun m hmq hcore
  · -- hidleJ
    intro m hm hcore
    by_cases hmn : m = newIdx
    · subst hmn
      rw [hnew2, newDispatchUpd_core] at hcore
      omega
    · have hmq : m ∈ s.queue := by
        rcases (hq2m m).1 hm with h | h
        · exact absurd h hmn
        · exact h
      have hfm := hf m (hqix m hmq)
      rw [hmem2 m hmn] at hcore ⊢
      rw [hfm.2.2.2.2.2.2.2.2.2] at hcore
      rw [hfm.2.2.2.2.1, hfm.2.2.2.2.2.1, hfm.2.2.2.2.2.2.1]
      rcases hidleJ m hmq hcore with h | ⟨h1, h2, h3⟩
      · exact Or.inl h
      · right
        refine ⟨h1, h2, ?_⟩
        rcases h3 with h3 | h3
        · exact Or.inl h3
        · right
          omega
  · -- hturn
    intro hrr i2 hi2
    have hmem_turn : ∀ i3, i3 < s.queue.length →
        (reg2.getD (s.queue.getD i3 0) defJob).turn = (i3 : Int) := by
      intro i3 hi3
      have hmem := getD_mem _ _ 0 hi3
      rw [hmem2 _ (hqlt _ hmem), (hf _ (hqix _ hmem)).2.2.2.2.2.2.2.2.1]
      exact hturn hrr i3 hi3
    have hnew_turn : (reg2.getD newIdx defJob).turn = (s.queue.length : Int) := by
      rw [hnew2]
      exact newDispatchUpd_turn_rr _ _ _ _ hrr
    have hoffer : (pqOffer (comparer s.sch) reg2 newIdx s.queue).1 =
        s.queue ++ [newIdx] := by
      rw [hrr]
      exact (rr_offer_end reg2 s.queue newIdx hmem_turn hnew_turn).1
    rw [hoffer] at hi2 ⊢
    simp only [List.length_append, List.length_cons, List.length_nil] at hi2
    by_cases hlt : i2 < s.queue.length
    · rw [getD_append_lt _ _ _ _ hlt]
      exact hmem_turn i2 hlt
    · have hi2e : i2 = s.queue.length := by omega
      subst hi2e
      rw [getD_append_length]
      exact hnew_turn

/-- The common shape of every `scheduler_new_job` outcome that leaves all
cores as they were and places the fresh job in the queue unassigned:
well-formedness is preserved. -/
theorem wf_ready_state (s : SchedState) (clk t jn : Int)
    (reg2 : List job_t) (q1 : List Nat)
    (hwf : WF s clk) (hct : clk ≤ t)
    (hlen2 : reg2.length = s.jobs.length + 1)
    (hq1mem : ∀ a, a ∈ q1 ↔ (a = s.jobs.length ∨ a ∈ s.queue))
    (hq1nodup : q1.Nodup)
    (hold : ∀ m, m < s.jobs.length →
      (reg2.getD m defJob).id = (s.jobs.getD m defJob).id ∧
      (reg2.getD m defJob).arr_time = (s.jobs.getD m defJob).arr_time ∧
      (reg2.getD m defJob).wait_time = (s.jobs.getD m defJob).wait_time ∧
      (reg2.getD m defJob).start_wait = (s.jobs.getD m defJob).start_wait ∧
      (reg2.getD m defJob).response_time = (s.jobs.getD m defJob).response_time ∧
      (reg2.getD m defJob).turnover_time = (s.jobs.getD m defJob).turnover_time ∧
      (reg2.getD m defJob).core_id = (s.jobs.getD m defJob).core_id)
    (hid_new : (reg2.getD s.jobs.length defJob).id = (s.jobs.length : Int))
    (harr_new : (reg2.getD s.jobs.length defJob).arr_time = t)
    (hto_new : (reg2.getD s.jobs.length defJob).turnover_time = -1)
    (hcore_new : (reg2.getD s.jobs.length defJob).core_id = -1)
    (hstats_new :
      ((reg2.getD s.jobs.length defJob).response_time = -1 ∧
       (reg2.getD s.jobs.length defJob).wait_time = -1 ∧
       (reg2.getD s.jobs.length defJob).start_wait = -1) ∨
      (0 ≤ (reg2.getD s.jobs.length defJob).response_time ∧
       0 ≤ (reg2.getD s.jobs.length defJob).wait_time ∧
       (reg2.getD s.jobs.length defJob).start_wait = -1))
    (hcnt : countAssigned reg2 = countAssigned s.jobs)
    (hturn2 : s.sch = RR → ∀ i, i < q1.length →
      (reg2.getD (q1.getD i 0) defJob).turn = (i : Int)) :
    WF { s with
         numOfJobs := s.numOfJobs + 1
         totalJobs := s.totalJobs + 1
         jobs := reg2
         queue := q1 } t := by
  obtain ⟨hclk, hcores, hlen, htot, hcv, hqix, hnodup, hids, harr, hcompl,
    hrange, hinj, hcount, hrun, hidleJ, hturn⟩ := hwf
  have hqlt : ∀ k, k ∈ s.queue → k ≠ s.jobs.length := by
    intro k hk he
    have := hqix k hk
    omega
  refine ⟨by omega, hcores, hlen, ?_, hcv, ?_, hq1nodup, ?_, ?_, ?_, ?_, ?_,
    ?_, ?_, ?_, hturn2⟩
  · -- htot
    show reg2.length = s.totalJobs + 1
    omega
  · -- hqix
    intro m hm
    rw [hlen2]
    rcases (hq1mem m).1 hm with h | h
    · omega
    · have := hqix m h
      omega
  · -- hids
    intro m hm
    rw [hlen2] at hm
    by_cases hmn : m = s.jobs.length
    · subst hmn
      exact hid_new
    · rw [(hold m (by omega)).1]
      exact hids m (by omega)
  · -- harr
    intro m hm
    rw [hlen2] at hm
    by_cases hmn : m = s.jobs.length
    · subst hmn
      rw [harr_new]
      omega
    · rw [(hold m (by omega)).2.1]
      have := harr m (by omega)
      omega
  · -- hcompl
    intro m hm
    rw [hlen2] at hm
    rw [hq1mem m]
    by_cases hmn : m = s.jobs.length
    · subst hmn
      rw [hto_new]
      exact ⟨fun _ => rfl, fun _ => Or.inl rfl⟩
    · rw [(hold m (by omega)).2.2.2.2.2.1]
      constructor
      · intro h
        rcases h with h | h
        · exact absurd h hmn
        · exact (hcompl m (by omega)).1 h
      · intro h
        exact Or.inr ((hcompl m (by omega)).2 h)
  · -- hrange
    intro m hm
    by_cases hmn : m = s.jobs.length
    · subst hmn
      exact Or.inl hcore_new
    · have hmq : m ∈ s.queue := by
        rcases (hq1mem m).1 hm with h | h
        · exact absurd h hmn
        · exact h
      rw [(hold m (hqix m hmq)).2.2.2.2.2.2]
      exact hrange m hmq
  · -- hinj
    intro m1 hm1 m2 hm2 hne hcore1
    by_cases h1n : m1 = s.jobs.length
    · subst h1n
      rw [hcore_new] at hcore1
      exact absurd rfl hcore1
    · have hm1q : m1 ∈ s.queue := by
        rcases (hq1mem m1).1 hm1 with h | h
        · exact absurd h h1n
        · exact h
      rw [(hold m1 (hqix m1 hm1q)).2.2.2.2.2.2] at hcore1 ⊢
      by_cases h2n : m2 = s.jobs.length
      · subst h2n
        rw [hcore_new]
        rcases hrange m1 hm1q with h | ⟨h1, _, _⟩
        · exact absurd h hcore1
        · omega
      · have hm2q : m2 ∈ s.queue := by
          rcases (hq1mem m2).1 hm2 with h | h
          · exact absurd h h2n
          · exact h
        rw [(hold m2 (hqix m2 hm2q)).2.2.2.2.2.2]
        exact hinj m1 hm1q m2 hm2q hne hcore1
  · -- hcount
    show countBusy s.core_arr = countAssigned reg2
    rw [hcnt, hcount]
  · -- hrun
    intro m hm hcore
    by_cases hmn : m = s.jobs.length
    · subst hmn
      rw [hcore_new] at hcore
      exact absurd rfl hcore
    · have hmq : m ∈ s.queue := by
        rcases (hq1mem m).1 hm with h | h
        · exact absurd h hmn
        · exact h
      have hfm := hold m (hqix m hmq)
      rw [hfm.2.2.2.2.2.2] at hcore
      rw [hfm.2.2.1, hfm.2.2.2.1, hfm.2.2.2.2.1]
      exact hrun m hmq hcore
  · -- hidleJ
    intro m hm hcore
    by_cases hmn : m = s.jobs.length
    · subst hmn
      rcases hstats_new with ⟨h1, h2, h3⟩ | ⟨h1, h2, h3⟩
      · exact Or.inl ⟨h1, h2, h3⟩
      · exact Or.inr ⟨h1, h2, Or.inl h3⟩
    · have hmq : m ∈ s.queue := by
        rcases (hq1mem m).1 hm with h | h
        · exact absurd h hmn
        · exact h
      have hfm := hold m (hqix m hmq)
      rw [hfm.2.2.2.2.2.2] at hcore
      rw [hfm.2.2.1, hfm.2.2.2.1, hfm.2.2.2.2.1]
      rcases hidleJ m hmq hcore with h | ⟨h1, h2, h3⟩
      · exact Or.inl h
      · right
        refine ⟨h1, h2, ?_⟩
        rcases h3 with h3 | h3
        · exact Or.inl h3
        · right
          omega

/-- `scheduler_new_job` preserves the invariant: all cores busy,
non-preemptive scheme (FCFS/SJF/PRI/RR) — the job is only queued. -/
theorem wf_new_job_queue (s : SchedState) (clk t r p jn : Int)
    (hwf : WF s clk) (hct : clk ≤ t) (hjn : jn = (s.totalJobs : Int))
    (hfi : firstIdle s.core_arr = none)
    (hsch : ¬ (s.sch = PSJF ∨ s.sch = PPRI)) :
    WF (scheduler_new_job s jn t r p).1 t := by
  simp only [scheduler_new_job, hfi]
  rw [if_neg hsch]
  set newIdx := s.jobs.length with hni
  set reg0 := s.jobs ++ [newJobInit jn t r p] with hreg0
  set reg1 := updateActive t reg0 s.queue with hreg1
  set reg2 := (if s.sch = RR then
    updJob reg1 newIdx (setTurn (s.queue.length : Int)) else reg1) with hreg2
  have hlen1 : reg1.length = newIdx + 1 := by
    rw [hreg1, updateActive_length, hreg0, List.length_append]
    rfl
  have hlen2 : reg2.length = newIdx + 1 := by
    rw [hreg2]
    split
    · rw [updJob_length, hlen1]
    · exact hlen1
  have hf : ∀ m, m < s.jobs.length →
      (reg1.getD m defJob).id = (s.jobs.getD m defJob).id ∧
      (reg1.getD m defJob).arr_time = (s.jobs.getD m defJob).arr_time ∧
      (reg1.getD m defJob).duration = (s.jobs.getD m defJob).duration ∧
      (reg1.getD m defJob).priority = (s.jobs.getD m defJob).priority ∧
      (reg1.getD m defJob).wait_time = (s.jobs.getD m defJob).wait_time ∧
      (reg1.getD m defJob).start_wait = (s.jobs.getD m defJob).start_wait ∧
      (reg1.getD m defJob).response_time = (s.jobs.getD m defJob).response_time ∧
      (reg1.getD m defJob).turnover_time = (s.jobs.getD m defJob).turnover_time ∧
      (reg1.getD m defJob).turn = (s.jobs.getD m defJob).turn ∧
      (reg1.getD m defJob).core_id = (s.jobs.getD m defJob).core_id := by
    intro m hm
    apply statsOf_ext
    rw [hreg1, updateActive_statsOf, hreg0, getD_append_lt _ _ _ _ hm]
  have hg : (reg1.getD newIdx defJob).id = (newJobInit jn t r p).id ∧
      (reg1.getD newIdx defJob).arr_time = (newJobInit jn t r p).arr_time ∧
      (reg1.getD newIdx defJob).duration = (newJobInit jn t r p).duration ∧
      (reg1.getD newIdx defJob).priority = (newJobInit jn t r p).priority ∧
      (reg1.getD newIdx defJob).wait_time = (newJobInit jn t r p).wait_time ∧
      (reg1.getD newIdx defJob).start_wait = (newJobInit jn t r p).start_wait ∧
      (reg1.getD newIdx defJob).response_time = (newJobInit jn t r p).response_time ∧
      (reg1.getD newIdx defJob).turnover_time = (newJobInit jn t r p).turnover_time ∧
      (reg1.getD newIdx defJob).turn = (newJobInit jn t r p).turn ∧
      (reg1.getD newIdx defJob).core_id = (newJobInit jn t r p).core_id := by
    apply statsOf_ext
    rw [hreg1, updateActive_statsOf, hreg0, getD_append_length]
  have hmem2 : ∀ m, m ≠ newIdx → reg2.getD m defJob = reg1.getD m defJob := by
    intro m hm
    rw [hreg2]
    split
    · exact updJob_getD_ne _ _ _ _ (Ne.symm hm)
    · rfl
  have hnew2 : ∃ tr, reg2.getD newIdx defJob =
      { reg1.getD newIdx defJob with turn := tr } := by
    rw [hreg2]
    split
    · refine ⟨(s.queue.length : Int), ?_⟩
      rw [updJob_getD_self _ _ _ (by omega)]
      rfl
    · exact ⟨(reg1.getD newIdx defJob).turn, rfl⟩
  obtain ⟨tr, htr⟩ := hnew2
  apply wf_ready_state s clk t jn reg2 _ hwf hct
  · exact hlen2
  · intro a
    exact pqOffer_mem _ _ _ _ _
  · apply pqOffer_nodup
    · intro hmem
      have := hwf.hqix _ hmem
      omega
    · exact hwf.hnodup
  · intro m hm
    have hfm := hf m hm
    rw [hmem2 m (by omega)]
    exact ⟨hfm.1, hfm.2.1, hfm.2.2.2.2.1, hfm.2.2.2.2.2.1, hfm.2.2.2.2.2.2.1,
      hfm.2.2.2.2.2.2.2.1, hfm.2.2.2.2.2.2.2.2.2⟩
  · rw [htr]
    show (reg1.getD newIdx defJob).id = (newIdx : Int)
    rw [hg.1]
    show jn = (newIdx : Int)
    have := hwf.htot
    omega
  · rw [htr]
    show (reg1.getD newIdx defJob).arr_time = t
    rw [hg.2.1]
    rfl
  · rw [htr]
    show (reg1.getD newIdx defJob).turnover_time = -1
    rw [hg.2.2.2.2.2.2.2.1]
    rfl
  · rw [htr]
    show (reg1.getD newIdx defJob).core_id = -1
    rw [hg.2.2.2.2.2.2.2.2.2]
    rfl
  · left
    rw [htr]
    refine ⟨?_, ?_, ?_⟩
    · show (reg1.getD newIdx defJob).response_time = -1
      rw [hg.2.2.2.2.2.2.1]
      rfl
    · show (reg1.getD newIdx defJob).wait_time = -1
      rw [hg.2.2.2.2.1]
      rfl
    · show (reg1.getD newIdx defJob).start_wait = -1
      rw [hg.2.2.2.2.2.1]
      rfl
  · -- countAssigned is unchanged
    have h1 : countAssigned reg1 = countAssigned s.jobs := by
      rw [hreg1, countAssigned_updateActive, hreg0, countAssigned_append]
      intro ⟨_, hcontra⟩
      exact hcontra rfl
    rw [hreg2]
    split
    · rw [countAssigned_updJob_keep reg1 newIdx (setTurn (s.queue.length : Int))
        (fun j => Iff.rfl)]
      exact h1
    · exact h1
  · -- the RR turn/rank correspondence
    intro hrr i2 hi2
    have hmem_turn : ∀ i3, i3 < s.queue.length →
        (reg2.getD (s.queue.getD i3 0) defJob).turn = (i3 : Int) := by
      intro i3 hi3
      have hmem := getD_mem _ _ 0 hi3
      have hne : s.queue.getD i3 0 ≠ newIdx := by
        have := hwf.hqix _ hmem
        omega
      rw [hmem2 _ hne, (hf _ (hwf.hqix _ hmem)).2.2.2.2.2.2.2.2.1]
      exact hwf.hturn hrr i3 hi3
    have hnew_turn : (reg2.getD newIdx defJob).turn = (s.queue.length : Int) := by
      rw [hreg2, if_pos hrr, updJob_getD_self _ _ _ (by omega)]
      rfl
    have hoffer : (pqOffer (comparer s.sch) reg2 newIdx s.queue).1 =
        s.queue ++ [newIdx] := by
      rw [hrr]
      exact (rr_offer_end reg2 s.queue newIdx hmem_turn hnew_turn).1
    rw [hoffer] at hi2 ⊢
    simp only [List.length_append, List.length_cons, List.length_nil] at hi2
    by_cases hlt : i2 < s.queue.length
    · rw [getD_append_lt _ _ _ _ hlt]
      exact hmem_turn i2 hlt
    · have hi2e : i2 = s.queue.length := by omega
      subst hi2e
      rw [getD_append_length]
      exact hnew_turn

/-- `scheduler_new_job` preserves the invariant: all cores busy, preemptive
scheme (PSJF/PPRI). -/
theorem wf_new_job_preempt (s : SchedState) (clk t r p jn : Int)
    (hwf : WF s clk) (hct : clk ≤ t) (hjn : jn = (s.totalJobs : Int))
    (hfi : firstIdle s.core_arr = none)
    (hsch : s.sch = PSJF ∨ s.sch = PPRI) :
    WF (scheduler_new_job s jn t r p).1 t := by
  have hnotrr : s.sch ≠ RR := by
    rcases hsch with h | h <;> rw [h] <;> intro hcontra <;> cases hcontra
  simp only [scheduler_new_job, hfi]
  rw [if_pos hsch]
  set newIdx := s.jobs.length with hni
  set reg0 := s.jobs ++ [newJobInit jn t r p] with hreg0
  set reg1 := updateActive t reg0 s.queue with hreg1
  set q1 := (pqOffer (comparer s.sch) reg1 newIdx s.queue).1 with hq1
  have hlen1 : reg1.length = newIdx + 1 := by
    rw [hreg1, updateActive_length, hreg0, List.length_append]
    rfl
  have hf : ∀ m, m < s.jobs.length →
      (reg1.getD m defJob).id = (s.jobs.getD m defJob).id ∧
      (reg1.getD m defJob).arr_time = (s.jobs.getD m defJob).arr_time ∧
      (reg1.getD m defJob).duration = (s.jobs.getD m defJob).duration ∧
      (reg1.getD m defJob).priority = (s.jobs.getD m defJob).priority ∧
      (reg1.getD m defJob).wait_time = (s.jobs.getD m defJob).wait_time ∧
      (reg1.getD m defJob).start_wait = (s.jobs.getD m defJob).start_wait ∧
      (reg1.getD m defJob).response_time = (s.jobs.getD m defJob).response_time ∧
      (reg1.getD m defJob).turnover_time = (s.jobs.getD m defJob).turnover_time ∧
      (reg1.getD m defJob).turn = (s.jobs.getD m defJob).turn ∧
      (reg1.getD m defJob).core_id = (s.jobs.getD m defJob).core_id := by
    intro m hm
    apply statsOf_ext
    rw [hreg1, updateActive_statsOf, hreg0, getD_append_lt _ _ _ _ hm]
  have hg : (reg1.getD newIdx defJob).id = (newJobInit jn t r p).id ∧
      (reg1.getD newIdx defJob).arr_time = (newJobInit jn t r p).arr_time ∧
      (reg1.getD newIdx defJob).duration = (newJobInit jn t r p).duration ∧
      (reg1.getD newIdx defJob).priority = (newJobInit jn t r p).priority ∧
      (reg1.getD newIdx defJob).wait_time = (newJobInit jn t r p).wait_time ∧
      (reg1.getD newIdx defJob).start_wait = (newJobInit jn t r p).start_wait ∧
      (reg1.getD newIdx defJob).response_time = (newJobInit jn t r p).response_time ∧
      (reg1.getD newIdx defJob).turnover_time = (newJobInit jn t r p).turnover_time ∧
      (reg1.getD newIdx defJob).turn = (newJobInit jn t r p).turn ∧
      (reg1.getD newIdx defJob).core_id = (newJobInit jn t r p).core_id := by
    apply statsOf_ext
    rw [hreg1, updateActive_statsOf, hreg0, getD_append_length]
  have hq1mem : ∀ a, a ∈ q1 ↔ (a = newIdx ∨ a ∈ s.queue) := by
    intro a
    rw [hq1]
    exact pqOffer_mem _ _ _ _ _
  have hq1nodup : q1.Nodup := by
    rw [hq1]
    apply pqOffer_nodup
    · intro hmem
      have := hwf.hqix _ hmem
      omega
    · exact hwf.hnodup
  have hcnt1 : countAssigned reg1 = countAssigned s.jobs := by
    rw [hreg1, countAssigned_updateActive, hreg0, countAssigned_append]
    intro ⟨_, hcontra⟩
    exact hcontra rfl
  have hturn_na : ∀ (reg : List job_t), s.sch = RR → ∀ i2, i2 < q1.length →
      (reg.getD (q1.getD i2 0) defJob).turn = (i2 : Int) := by
    intro _ hrr
    exact absurd hrr hnotrr
  by_cases hrank : (pqOffer (comparer s.sch) reg1 newIdx s.queue).2 < s.numOfCores
  · rw [if_pos hrank]
    cases hvic : findLastAssigned reg1 q1 with
    | none =>
      dsimp only
      apply wf_ready_state s clk t jn _ _ hwf hct
      · rw [updJob_length, hlen1]
      · exact hq1mem
      · exact hq1nodup
      · intro m hm
        have hfm := hf m hm
        rw [updJob_getD_ne _ _ _ _ (by omega)]
        exact ⟨hfm.1, hfm.2.1, hfm.2.2.2.2.1, hfm.2.2.2.2.2.1, hfm.2.2.2.2.2.2.1,
          hfm.2.2.2.2.2.2.2.1, hfm.2.2.2.2.2.2.2.2.2⟩
      · rw [updJob_getD_self _ _ _ (by omega), newDispatchUpd_id, hg.1]
        show jn = (newIdx : Int)
        have := hwf.htot
        omega
      · rw [updJob_getD_self _ _ _ (by omega), newDispatchUpd_arr, hg.2.1]
        rfl
      · rw [updJob_getD_self _ _ _ (by omega), newDispatchUpd_turnover,
          hg.2.2.2.2.2.2.2.1]
        rfl
      · rw [updJob_getD_self _ _ _ (by omega), newDispatchUpd_core]
      · right
        rw [updJob_getD_self _ _ _ (by omega), newDispatchUpd_resp,
          newDispatchUpd_wait, newDispatchUpd_sw, hg.2.2.2.2.2.1]
        refine ⟨le_refl 0, le_refl 0, rfl⟩
      · have hco : (reg1.getD newIdx defJob).core_id = -1 := by
          rw [hg.2.2.2.2.2.2.2.2.2]
          rfl
        unfold countAssigned updJob
        rw [countP_set_eq _ _ _ _ defJob (by rw [hco]; simp [newDispatchUpd_core])]
        exact hcnt1
      · exact hturn_na _
    | some v =>
      dsimp only
      obtain ⟨hv_memq1, hv_core1⟩ := findLastAssigned_eq_some _ _ _ hvic
      have hv_ne : v ≠ newIdx := by
        intro he
        rw [he, hg.2.2.2.2.2.2.2.2.2] at hv_core1
        exact hv_core1 rfl
      have hv_memq : v ∈ s.queue := by
        rcases (hq1mem v).1 hv_memq1 with h | h
        · exact absurd h hv_ne
        · exact h
      have hv_lt : v < s.jobs.length := hwf.hqix _ hv_memq
      have hfv := hf v hv_lt
      have hv_core_s : (s.jobs.getD v defJob).core_id ≠ -1 := by
        rw [← hfv.2.2.2.2.2.2.2.2.2]
        exact hv_core1
      obtain ⟨hvc0, hvc1, hvc2⟩ : 0 ≤ (s.jobs.getD v defJob).core_id ∧
          (s.jobs.getD v defJob).core_id.toNat < s.numOfCores ∧
          s.core_arr.getD (s.jobs.getD v defJob).core_id.toNat 0 = 1 := by
        rcases hwf.hrange v hv_memq with h | h
        · exact absurd h hv_core_s
        · exact h
      have hcval : (reg1.getD v defJob).core_id = (s.jobs.getD v defJob).core_id :=
        hfv.2.2.2.2.2.2.2.2.2
      set reg2 := updJob reg1 v (victimUpd t) with hreg2
      set reg3 := updJob reg2 newIdx
        (newDispatchUpd FCFS 0 (reg1.getD v defJob).core_id) with hreg3
      have hlen2 : reg2.length = newIdx + 1 := by
        rw [hreg2, updJob_length, hlen1]
      have hlen3 : reg3.length = newIdx + 1 := by
        rw [hreg3, updJob_length, hlen2]
      have hn3 : reg3.getD newIdx defJob =
          newDispatchUpd FCFS 0 (reg1.getD v defJob).core_id
            (reg1.getD newIdx defJob) := by
        rw [hreg3, updJob_getD_self _ _ _ (by omega), hreg2,
          updJob_getD_ne _ _ _ _ hv_ne]
      have hv3 : reg3.getD v defJob = victimUpd t (reg1.getD v defJob) := by
        rw [hreg3, updJob_getD_ne _ _ _ _ (fun he => hv_ne he.symm), hreg2,
          updJob_getD_self _ _ _ (by omega)]
      have hoth : ∀ m, m ≠ v → m ≠ newIdx →
          reg3.getD m defJob = reg1.getD m defJob := by
        intro m h1 h2
        rw [hreg3, updJob_getD_ne _ _ _ _ (Ne.symm h2), hreg2,
          updJob_getD_ne _ _ _ _ (Ne.symm h1)]
      have hclen : (s.jobs.getD v defJob).core_id.toNat < s.core_arr.length := by
        have := hwf.hlen
        omega
      have hnewcore : (reg3.getD newIdx defJob).core_id =
          (s.jobs.getD v defJob).core_id := by
        rw [hn3, newDispatchUpd_core, hcval]
      refine ⟨by have := hwf.hclk; omega, hwf.hcores, ?_, ?_, ?_, ?_, hq1nodup,
        ?_, ?_, ?_, ?_, ?_, ?_, ?_, ?_, ?_⟩
      · -- hlen
        simpa using hwf.hlen
      · -- htot
        show reg3.length = s.totalJobs + 1
        have := hwf.htot
        omega
      · -- hcv
        intro i2 hi2
        simp only [List.length_set] at hi2
        by_cases hic : i2 = (reg1.getD v defJob).core_id.toNat
        · subst hic
          rw [getD_set_self _ _ _ _ (by rwa [hcval])]
          exact Or.inr rfl
        · rw [getD_set_ne _ _ _ _ _ (fun he => hic he.symm)]
          exact hwf.hcv i2 hi2
      · -- hqix
        intro m hm
        rw [hlen3]
        rcases (hq1mem m).1 hm with h | h
        · omega
        · have := hwf.hqix m h
          omega
      · -- hids
        intro m hm
        rw [hlen3] at hm
        by_cases hmn : m = newIdx
        · subst hmn
          rw [hn3, newDispatchUpd_id, hg.1]
          show jn = (newIdx : Int)
          have := hwf.htot
          omega
        · by_cases hmv : m = v
          · subst hmv
            rw [hv3, victimUpd_id, hfv.1]
            exact hwf.hids m (by omega)
          · rw [hoth m hmv hmn, (hf m (by omega)).1]
            exact hwf.hids m (by omega)
      · -- harr
        intro m hm
        rw [hlen3] at hm
        by_cases hmn : m = newIdx
        · subst hmn
          rw [hn3, newDispatchUpd_arr, hg.2.1]
          show 0 ≤ t ∧ t ≤ t
          have := hwf.hclk
          omega
        · by_cases hmv : m = v
          · subst hmv
            rw [hv3, victimUpd_arr, hfv.2.1]
            have := hwf.harr m (by omega)
            omega
          · rw [hoth m hmv hmn, (hf m (by omega)).2.1]
            have := hwf.harr m (by omega)
            omega
      · -- hcompl
        intro m hm
        rw [hlen3] at hm
        rw [hq1mem m]
        by_cases hmn : m = newIdx
        · subst hmn
          rw [hn3, newDispatchUpd_turnover, hg.2.2.2.2.2.2.2.1]
          constructor
          · intro _
            rfl
          · intro _
            exact Or.inl rfl
        · by_cases hmv : m = v
          · subst hmv
            rw [hv3, victimUpd_turnover, hfv.2.2.2.2.2.2.2.1]
            constructor
            · intro _
              exact (hwf.hcompl m (by omega)).1 hv_memq
            · intro _
              exact Or.inr hv_memq
          · rw [hoth m hmv hmn, (hf m (by omega)).2.2.2.2.2.2.2.1]
            constructor
            · intro h
              rcases h with h | h
              · exact absurd h hmn
              · exact (hwf.hcompl m (by omega)).1 h
            · intro h
              exact Or.inr ((hwf.hcompl m (by omega)).2 h)
      · -- hrange
        intro m hm
        by_cases hmn : m = newIdx
        · subst hmn
          right
          rw [hnewcore]
          refine ⟨hvc0, hvc1, ?_⟩
          rw [hcval]
          exact getD_set_self _ _ _ _ hclen
        · by_cases hmv : m = v
          · subst hmv
            left
            rw [hv3, victimUpd_core]
          · have hmq : m ∈ s.queue := by
              rcases (hq1mem m).1 hm with h | h
              · exact absurd h hmn
              · exact h
            rw [hoth m hmv hmn, (hf m (hwf.hqix m hmq)).2.2.2.2.2.2.2.2.2]
            rcases hwf.hrange m hmq with h | ⟨h1, h2, h3⟩
            · exact Or.inl h
            · right
              refine ⟨h1, h2, ?_⟩
              rw [hcval, getD_set_ne]
              · exact h3
              · intro he
                have hcne2 : (s.jobs.getD m defJob).core_id ≠
                    (s.jobs.getD v defJob).core_id :=
                  hwf.hinj m hmq v hv_memq hmv (by omega)
                omega
      · -- hinj
        intro m1 hm1 m2 hm2 hne hcore1
        have hval : ∀ m, m ∈ q1 → m ≠ newIdx → m ≠ v →
            reg3.getD m defJob = reg1.getD m defJob ∧ m ∈ s.queue := by
          intro m hm h1 h2
          refine ⟨hoth m h2 h1, ?_⟩
          rcases (hq1mem m).1 hm with h | h
          · exact absurd h h1
          · exact h
        by_cases h1n : m1 = newIdx
        · subst h1n
          rw [hnewcore]
          by_cases h2v : m2 = v
          · subst h2v
            rw [hv3, victimUpd_core]
            omega
          · obtain ⟨he2, hm2q⟩ := hval m2 hm2 (Ne.symm hne) h2v
            rw [he2, (hf m2 (hwf.hqix m2 hm2q)).2.2.2.2.2.2.2.2.2]
            intro he
            exact hwf.hinj m2 hm2q v hv_memq h2v (by omega) he.symm
        · by_cases h1v : m1 = v
          · subst h1v
            rw [hv3, victimUpd_core] at hcore1
            exact absurd rfl hcore1
          · obtain ⟨he1, hm1q⟩ := hval m1 hm1 h1n h1v
            rw [he1, (hf m1 (hwf.hqix m1 hm1q)).2.2.2.2.2.2.2.2.2] at hcore1 ⊢
            by_cases h2n : m2 = newIdx
            · subst h2n
              rw [hnewcore]
              exact hwf.hinj m1 hm1q v hv_memq h1v hcore1
            · by_cases h2v : m2 = v
              · subst h2v
                rw [hv3, victimUpd_core]
                exact hcore1
              · obtain ⟨he2, hm2q⟩ := hval m2 hm2 h2n h2v
                rw [he2, (hf m2 (hwf.hqix m2 hm2q)).2.2.2.2.2.2.2.2.2]
                exact hwf.hinj m1 hm1q m2 hm2q hne hcore1
      · -- hcount
        show countBusy (s.core_arr.set (reg1.getD v defJob).core_id.toNat 1) =
          countAssigned reg3
        have hb : countBusy (s.core_arr.set (reg1.getD v defJob).core_id.toNat 1) =
            countBusy s.core_arr := by
          unfold countBusy
          apply countP_set_eq
          rw [hcval, hvc2]
        have ha3 : countAssigned reg3 = countAssigned reg2 + 1 := by
          rw [hreg3]
          unfold countAssigned updJob
          apply countP_set_true _ _ _ _ defJob (by omega)
          · simp only [decide_eq_false_iff_not, not_and, not_not]
            intro _
            rw [hreg2, updJob_getD_ne _ _ _ _ hv_ne]
            exact hg.2.2.2.2.2.2.2.2.2
          · simp only [decide_eq_true_eq, newDispatchUpd_turnover, newDispatchUpd_core]
            constructor
            · rw [hreg2, updJob_getD_ne _ _ _ _ hv_ne, hg.2.2.2.2.2.2.2.1]
              rfl
            · omega
        have ha2 : countAssigned reg2 + 1 = countAssigned reg1 := by
          rw [hreg2]
          unfold countAssigned updJob
          apply countP_set_false _ _ _ _ defJob (by omega)
          · simp only [decide_eq_true_eq]
            refine ⟨?_, hv_core1⟩
            rw [hfv.2.2.2.2.2.2.2.1]
            exact (hwf.hcompl v hv_lt).1 hv_memq
          · simp only [decide_eq_false_iff_not, not_and, not_not]
            intro _
            exact victimUpd_core _ _
        rw [hb, ha3, hwf.hcount, ← hcnt1]
        omega
      · -- hrun
        intro m hm hcore
        by_cases hmn : m = newIdx
        · subst hmn
          rw [hn3, newDispatchUpd_resp, newDispatchUpd_wait, newDispatchUpd_sw,
            hg.2.2.2.2.2.1]
          exact ⟨le_refl 0, le_refl 0, rfl⟩
        · by_cases hmv : m = v
          · subst hmv
            rw [hv3, victimUpd_core] at hcore
            exact absurd rfl hcore
          · have hmq : m ∈ s.queue := by
              rcases (hq1mem m).1 hm with h | h
              · exact absurd h hmn
              · exact h
            have hfm := hf m (hwf.hqix m hmq)
            rw [hoth m hmv hmn] at hcore ⊢
            rw [hfm.2.2.2.2.2.2.2.2.2] at hcore
            rw [hfm.2.2.2.2.1, hfm.2.2.2.2.2.1, hfm.2.2.2.2.2.2.1]
            exact hwf.hrun m hmq hcore
      · -- hidleJ
        intro m hm hcore
        by_cases hmn : m = newIdx
        · subst hmn
          rw [hnewcore] at hcore
          omega
        · by_cases hmv : m = v
          · subst hmv
            rw [hv3]
            have hwasrun := hwf.hrun m hv_memq hv_core_s
            rcases victimUpd_stats t (reg1.getD m defJob) with ⟨h1, h2, h3⟩ |
              ⟨h1, h2, h3⟩
            · exact Or.inl ⟨h1, h2, h3⟩
            · right
              rw [h1, h2, h3, hfv.2.2.2.2.2.2.1, hfv.2.2.2.2.1]
              refine ⟨hwasrun.1, hwasrun.2.1,
                Or.inr ⟨by have := hwf.hclk; omega, le_refl t⟩⟩
          · have hmq : m ∈ s.queue := by
              rcases (hq1mem m).1 hm with h | h
              · exact absurd h hmn
              · exact h
            have hfm := hf m (hwf.hqix m hmq)
            rw [hoth m hmv hmn] at hcore ⊢
            rw [hfm.2.2.2.2.2.2.2.2.2] at hcore
            rw [hfm.2.2.2.2.1, hfm.2.2.2.2.2.1, hfm.2.2.2.2.2.2.1]
            rcases hwf.hidleJ m hmq hcore with h | ⟨h1, h2, h3⟩
            · exact Or.inl h
            · right
              refine ⟨h1, h2, ?_⟩
              rcases h3 with h3 | h3
              · exact Or.inl h3
              · right
                omega
      · -- hturn
        exact hturn_na _
  · rw [if_neg hrank]
    apply wf_ready_state s clk t jn _ _ hwf hct
    · exact hlen1
    · exact hq1mem
    · exact hq1nodup
    · intro m hm
      have hfm := hf m hm
      exact ⟨hfm.1, hfm.2.1, hfm.2.2.2.2.1, hfm.2.2.2.2.2.1, hfm.2.2.2.2.2.2.1,
        hfm.2.2.2.2.2.2.2.1, hfm.2.2.2.2.2.2.2.2.2⟩
    · rw [hg.1]
      show jn = (newIdx : Int)
      have := hwf.htot
      omega
    · rw [hg.2.1]
      rfl
    · rw [hg.2.2.2.2.2.2.2.1]
      rfl
    · rw [hg.2.2.2.2.2.2.2.2.2]
      rfl
    · left
      rw [hg.2.2.2.2.2.2.1, hg.2.2.2.2.1, hg.2.2.2.2.2.1]
      exact ⟨rfl, rfl, rfl⟩
    · exact hcnt1
    · exact hturn_na _

/-- `scheduler_new_job` preserves the invariant (all branches). -/
theorem wf_new_job (s : SchedState) (clk t r p jn : Int)
    (hwf : WF s clk) (hct : clk ≤ t) (hjn : jn = (s.totalJobs : Int)) :
    WF (scheduler_new_job s jn t r p).1 t := by
  cases hfi : firstIdle s.core_arr with
  | some i => exact wf_new_job_idle s clk t r p jn i hwf hct hjn hfi
  | none =>
    by_cases hsch : s.sch = PSJF ∨ s.sch = PPRI
    · exact wf_new_job_preempt s clk t r p jn hwf hct hjn hfi hsch
    · exact wf_new_job_queue s clk t r p jn hwf hct hjn hfi hsch

/-- Every reachable state satisfies the invariant at the reached clock. -/
theorem reach_wf {s : SchedState} {clk : Int} (h : Reach s clk) : WF s clk := by
  induction h with
  | start cores sc t0 hc ht => exact wf_start cores sc t0 hc ht
  | step e hr hv ih =>
    cases e with
    | arrival jn t r p =>
      obtain ⟨hjn, hct, _⟩ := hv
      exact wf_new_job _ _ _ r p jn ih hct hjn
    | finished c jn t =>
      obtain ⟨hct, hc, hex⟩ := hv
      exact wf_finished _ _ _ c jn ih hct hc hex
    | quantum c t =>
      obtain ⟨hct, hc, hrr, hex⟩ := hv
      exact wf_quantum _ _ _ c ih hct hc hrr hex

/-- The dispatch scan of `selectNext` only touches queue members: any index
outside the queue keeps its record. -/
theorem selectNext_getD_not_mem (time : Int) (c : Nat) (s : SchedState) (m : Nat)
    (hm : m ∉ s.queue) :
    (selectNext time c s).1.jobs.getD m defJob = s.jobs.getD m defJob := by
  unfold selectNext
  cases hfd : qFind s.jobs (fun j => j.core_id = -1) s.queue with
  | none => rfl
  | some k =>
    dsimp only
    exact updJob_getD_ne _ _ _ _
      (fun he => hm (he ▸ (qFind_eq_some _ _ _ _ hfd).1))

theorem finishUpd_duration (sch : scheme_t) (time : Int) (j : job_t) :
    (finishUpd sch time j).duration = j.duration := by
  unfold finishUpd
  dsimp only
  split <;> rfl

/-- The dispatch scan of `selectNext` only hands a core to a job whose
`core_id` is -1: a running job's record is untouched. -/
theorem selectNext_getD_core_ne (time : Int) (c : Nat) (s : SchedState) (m : Nat)
    (hm : (s.jobs.getD m defJob).core_id ≠ -1) :
    (selectNext time c s).1.jobs.getD m defJob = s.jobs.getD m defJob := by
  unfold selectNext
  cases hfd : qFind s.jobs (fun j => j.core_id = -1) s.queue with
  | none => rfl
  | some k =>
    dsimp only
    refine updJob_getD_ne _ _ _ _ (fun he => ?_)
    exact hm (he ▸ (qFind_eq_some _ _ _ _ hfd).2)

/-- `selectNext` writes no core-table slot other than `c`. -/
theorem selectNext_core_arr_ne (time : Int) (c : Nat) (s : SchedState) (i2 : Nat)
    (hne : i2 ≠ c) :
    (selectNext time c s).1.core_arr.getD i2 0 = s.core_arr.getD i2 0 := by
  unfold selectNext
  cases hfd : qFind s.jobs (fun j => j.core_id = -1) s.queue with
  | none => rfl
  | some k =>
    dsimp only
    exact getD_set_ne _ _ _ _ _ (fun he => hne he.symm)

/-- Under a non-preemptive scheme, `scheduler_new_job` does not modify the
`core_id` of any already-registered job. -/
theorem new_job_core_preserved (s : SchedState) (jn t r p : Int) (k : Nat)
    (hk : k < s.jobs.length)
    (hsch : ¬ (s.sch = PSJF ∨ s.sch = PPRI)) :
    ((scheduler_new_job s jn t r p).1.jobs.getD k defJob).core_id =
      (s.jobs.getD k defJob).core_id := by
  have hkne : s.jobs.length ≠ k := by omega
  have hst : statsOf ((updateActive t (s.jobs ++ [newJobInit jn t r p])
      s.queue).getD k defJob) = statsOf (s.jobs.getD k defJob) := by
    rw [updateActive_statsOf, getD_append_lt _ _ _ _ hk]
  have hf := (statsOf_ext hst).2.2.2.2.2.2.2.2.2
  unfold scheduler_new_job
  dsimp only
  cases hfi : firstIdle s.core_arr with
  | some i =>
    dsimp only
    rw [updJob_getD_ne _ _ _ _ hkne]
    exact hf
  | none =>
    dsimp only
    rw [if_neg hsch]
    dsimp only
    split
    · rw [updJob_getD_ne _ _ _ _ hkne]
      exact hf
    · exact hf

/-- Under a non-preemptive scheme, `scheduler_new_job` never clears a busy
core-table slot. -/
theorem new_job_busy_preserved (s : SchedState) (jn t r p : Int) (i2 : Nat)
    (hb : s.core_arr.getD i2 0 = 1)
    (hsch : ¬ (s.sch = PSJF ∨ s.sch = PPRI)) :
    (scheduler_new_job s jn t r p).1.core_arr.getD i2 0 = 1 := by
  unfold scheduler_new_job
  dsimp only
  cases hfi : firstIdle s.core_arr with
  | some i =>
    dsimp only
    obtain ⟨hi_lt, hi0⟩ := firstIdle_some_spec _ _ hfi
    by_cases hii : i2 = i
    · rw [hii] at hb
      rw [hb] at hi0
      exact absurd hi0 (by decide)
    · rw [getD_set_ne _ _ _ _ _ (fun he => hii he.symm)]
      exact hb
  | none =>
    dsimp only
    rw [if_neg hsch]
    exact hb

theorem dispatchAt_resp_unset (t c : Int) (j : job_t)
    (h : j.response_time = -1) :
    (dispatchAt t c j).response_time = t - j.arr_time := by
  unfold dispatchAt
  dsimp only
  rw [if_pos h]
  split <;> rfl

theorem dispatchAt_resp_set (t c : Int) (j : job_t)
    (h : ¬ j.response_time = -1) :
    (dispatchAt t c j).response_time = j.response_time := by
  unfold dispatchAt
  dsimp only
  rw [if_neg h]
  split <;> rfl

theorem setTurn_resp (n : Int) (j : job_t) :
    (setTurn n j).response_time = j.response_time := rfl

/-- The preemption-victim update either resets `response_time` to the
sentinel (zero progress) or leaves it unchanged. -/
theorem victimUpd_resp_cases (time : Int) (j : job_t) :
    (victimUpd time j).response_time = -1 ∨
      (victimUpd time j).response_time = j.response_time := by
  unfold victimUpd yieldUpd
  dsimp only
  split
  · exact Or.inl rfl
  · exact Or.inr rfl

/-! ### The claims -/

/-- C1: after `scheduler_start_up` with zero jobs ever submitted, all three
statistics queries `scheduler_average_waiting_time`,
`scheduler_average_turnaround_time` and `scheduler_average_response_time`
unconditionally perform the division `(float)sum / (float)totalJobs` with
`totalJobs = 0`: every one of them divides by zero (the code has no guard),
contrary to the claim that no division by zero is performed. -/
theorem C1_zero_jobs_stats_divide_by_zero (cores : Nat) (sc : scheme_t) :
    (scheduler_average_waiting_time (scheduler_start_up cores sc)).2 = 0 ∧
    (scheduler_average_turnaround_time (scheduler_start_up cores sc)).2 = 0 ∧
    (scheduler_average_response_time (scheduler_start_up cores sc)).2 = 0 :=
  ⟨rfl, rfl, rfl⟩

/-- C3, counterexample: the comparator installed for SJF is `compare2`,
which orders by `remaining_time`, not by `duration`.  On the job pair
`sjfJobA` (duration 10, remaining 2, running) and `sjfJobB` (duration 5,
fresh), `compare2` puts A first although A's duration is larger, so
"`a` precedes `b` iff `a.duration < b.duration` or equal durations with
`a.id < b.id`" is false for the installed comparator. -/
theorem C3_counterexample :
    ¬ ((comparer scheme_t.SJF sjfJobA sjfJobB < 0) ↔
        (sjfJobA.duration < sjfJobB.duration ∨
          (sjfJobA.duration = sjfJobB.duration ∧ sjfJobA.id < sjfJobB.id))) := by
  decide

/-- C3, amended: the comparator `scheduler_start_up` installs for SJF is
`compare2`, which orders jobs by `remaining_time` ascending with id
ascending as the tie-break (for a job that has never executed,
`remaining_time` equals `duration`, so the order coincides with duration
order on such jobs). -/
theorem C3_sjf_comparator_remaining_time (a b : job_t) :
    comparer scheme_t.SJF a b < 0 ↔
      (a.remaining_time < b.remaining_time ∨
        (a.remaining_time = b.remaining_time ∧ a.id < b.id)) := by
  simp only [comparer, compare2]
  split_ifs <;> omega

/-- C2, counterexample: in the valid PSJF run `psjfS1` … `psjfS5`
(reachability of the final state witnesses that every event satisfies the
handler preconditions), job 1's `response_time` is assigned the non-sentinel
value 1 at its first dispatch (t=2), is reset to the sentinel -1 when job 2
preempts it before it has executed any time unit, and is then assigned the
non-sentinel value 2 at its second dispatch (t=3).  So over the run the
field is assigned a non-sentinel value twice, and its final value 2 differs
from first-dispatch-time − arrival_time = 2 − 1 = 1: the claim as stated is
false. -/
theorem C2_counterexample :
    Reach psjfS5.1 3 ∧
    (psjfS3.1.jobs.getD 1 defJob).response_time = 1 ∧
    (psjfS4.1.jobs.getD 1 defJob).response_time = -1 ∧
    (psjfS5.1.jobs.getD 1 defJob).response_time = 2 := by
  refine ⟨?_, by decide, by decide, by decide⟩
  have h0 : Reach (scheduler_start_up 1 scheme_t.PSJF) 0 :=
    Reach.start 1 scheme_t.PSJF 0 (by decide) (by decide)
  have h1 : Reach psjfS1.1 0 :=
    Reach.step (Event.arrival 0 0 2 1) h0 (by decide)
  have h2 : Reach psjfS2.1 1 :=
    Reach.step (Event.arrival 1 1 5 1) h1 (by decide)
  have h3 : Reach psjfS3.1 2 :=
    Reach.step (Event.finished 0 0 2) h2 (by decide)
  have h4 : Reach psjfS4.1 2 :=
    Reach.step (Event.arrival 2 2 1 1) h3 (by decide)
  exact Reach.step (Event.finished 0 2 3) h4 (by decide)

/-- C8: when at least one core is idle (`i0` the lowest-indexed idle core),
`scheduler_new_job` assigns the arriving job to core `i0`: its `wait_time`
and `response_time` become 0, its `core_id` becomes `i0` (under RR its
`turn` becomes the current queue size), it is inserted into the queue, the
core is marked busy, and `i0` is returned. -/
theorem C8_idle_core_dispatch (s : SchedState) (jn t r p : Int) (i0 : Nat)
    (hq : ∀ k ∈ s.queue, k < s.jobs.length)
    (hi0 : i0 < s.core_arr.length)
    (hidle : s.core_arr.getD i0 0 = 0)
    (hlow : ∀ m, m < i0 → s.core_arr.getD m 0 ≠ 0) :
    (scheduler_new_job s jn t r p).2 = (i0 : Int) ∧
    ((scheduler_new_job s jn t r p).1.jobs.getD s.jobs.length defJob).core_id = (i0 : Int) ∧
    ((scheduler_new_job s jn t r p).1.jobs.getD s.jobs.length defJob).wait_time = 0 ∧
    ((scheduler_new_job s jn t r p).1.jobs.getD s.jobs.length defJob).response_time = 0 ∧
    (s.sch = scheme_t.RR →
      ((scheduler_new_job s jn t r p).1.jobs.getD s.jobs.length defJob).turn =
        (s.queue.length : Int)) ∧
    s.jobs.length ∈ (scheduler_new_job s jn t r p).1.queue ∧
    (scheduler_new_job s jn t r p).1.core_arr.getD i0 0 = 1 := by
  have hfi : firstIdle s.core_arr = some i0 := firstIdle_eq_some _ _ hi0 hidle hlow
  have hnm : s.jobs.length ∉ s.queue := fun hmem => by
    have := hq _ hmem
    omega
  have hlen1 : s.jobs.length <
      (updateActive t (s.jobs ++ [newJobInit jn t r p]) s.queue).length := by
    rw [updateActive_length, List.length_append]
    simp
  have hget1 : (updateActive t (s.jobs ++ [newJobInit jn t r p]) s.queue).getD
      s.jobs.length defJob = newJobInit jn t r p := by
    rw [updateActive_getD_not_mem _ _ _ _ hnm, getD_append_length]
  simp only [scheduler_new_job, hfi]
  rw [updJob_getD_self _ _ _ hlen1, hget1]
  refine ⟨trivial, ?_, ?_, ?_, ?_, ?_, ?_⟩
  · exact newDispatchUpd_core _ _ _ _
  · exact newDispatchUpd_wait _ _ _ _
  · exact newDispatchUpd_resp _ _ _ _
  · intro hrr
    exact newDispatchUpd_turn_rr _ _ _ _ hrr
  · rw [pqOffer_mem]
    exact Or.inl rfl
  · exact getD_set_self _ _ _ _ hi0

/-- Witness for C8 at a concrete input: one idle core, FCFS, first arrival. -/
theorem C8_idle_core_dispatch_witness :
    (scheduler_new_job (scheduler_start_up 1 scheme_t.FCFS) 0 0 5 1).2 = ((0 : Nat) : Int) ∧
    ((scheduler_new_job (scheduler_start_up 1 scheme_t.FCFS) 0 0 5 1).1.jobs.getD
      (scheduler_start_up 1 scheme_t.FCFS).jobs.length defJob).core_id = ((0 : Nat) : Int) ∧
    ((scheduler_new_job (scheduler_start_up 1 scheme_t.FCFS) 0 0 5 1).1.jobs.getD
      (scheduler_start_up 1 scheme_t.FCFS).jobs.length defJob).wait_time = 0 ∧
    ((scheduler_new_job (scheduler_start_up 1 scheme_t.FCFS) 0 0 5 1).1.jobs.getD
      (scheduler_start_up 1 scheme_t.FCFS).jobs.length defJob).response_time = 0 ∧
    ((scheduler_start_up 1 scheme_t.FCFS).sch = scheme_t.RR →
      ((scheduler_new_job (scheduler_start_up 1 scheme_t.FCFS) 0 0 5 1).1.jobs.getD
        (scheduler_start_up 1 scheme_t.FCFS).jobs.length defJob).turn =
        ((scheduler_start_up 1 scheme_t.FCFS).queue.length : Int)) ∧
    (scheduler_start_up 1 scheme_t.FCFS).jobs.length ∈
      (scheduler_new_job (scheduler_start_up 1 scheme_t.FCFS) 0 0 5 1).1.queue ∧
    (scheduler_new_job (scheduler_start_up 1 scheme_t.FCFS) 0 0 5 1).1.core_arr.getD 0 0 = 1 :=
  C8_idle_core_dispatch (scheduler_start_up 1 scheme_t.FCFS) 0 0 5 1 0
    (fun k hk => by simp [scheduler_start_up] at hk)
    (by decide) (by decide) (fun m hm => by omega)

/-- C7: when `scheduler_new_job` takes the PSJF/PPRI preemption branch
(no idle core, insertion rank below `numOfCores`, victim `v` found by the
backwards scan), then: if the victim's recomputed `remaining_time` equals
its `duration` (it has executed zero time units), its `response_time`,
`wait_time` and `start_wait` are all reset to the sentinel -1; if the
recomputed remaining time is below its duration, `response_time` and
`wait_time` keep their values and only `start_wait` is set to the
preemption time. -/
theorem C7_zero_progress_preemption_reset
    (s : SchedState) (jn t r p : Int)
    (reg1 : List job_t) (q1 : List Nat) (rank v : Nat)
    (hq : ∀ k ∈ s.queue, k < s.jobs.length)
    (hnoidle : firstIdle s.core_arr = none)
    (hsch : s.sch = scheme_t.PSJF ∨ s.sch = scheme_t.PPRI)
    (hreg1 : reg1 = updateActive t (s.jobs ++ [newJobInit jn t r p]) s.queue)
    (hoff : pqOffer (comparer s.sch) reg1 s.jobs.length s.queue = (q1, rank))
    (hrank : rank < s.numOfCores)
    (hvic : findLastAssigned reg1 q1 = some v) :
    ((reg1.getD v defJob).duration -
        (t - (reg1.getD v defJob).wait_time - (reg1.getD v defJob).arr_time) =
        (reg1.getD v defJob).duration →
      ((scheduler_new_job s jn t r p).1.jobs.getD v defJob).response_time = -1 ∧
      ((scheduler_new_job s jn t r p).1.jobs.getD v defJob).wait_time = -1 ∧
      ((scheduler_new_job s jn t r p).1.jobs.getD v defJob).start_wait = -1) ∧
    ((reg1.getD v defJob).duration -
        (t - (reg1.getD v defJob).wait_time - (reg1.getD v defJob).arr_time) <
        (reg1.getD v defJob).duration →
      ((scheduler_new_job s jn t r p).1.jobs.getD v defJob).response_time =
        (reg1.getD v defJob).response_time ∧
      ((scheduler_new_job s jn t r p).1.jobs.getD v defJob).wait_time =
        (reg1.getD v defJob).wait_time ∧
      ((scheduler_new_job s jn t r p).1.jobs.getD v defJob).start_wait = t) := by
  have hnm : s.jobs.length ∉ s.queue := fun hmem => by
    have := hq _ hmem
    omega
  have hreg1len : reg1.length = s.jobs.length + 1 := by
    rw [hreg1, updateActive_length, List.length_append]
    rfl
  have hget1 : reg1.getD s.jobs.length defJob = newJobInit jn t r p := by
    rw [hreg1, updateActive_getD_not_mem _ _ _ _ hnm, getD_append_length]
  obtain ⟨hv_mem, hv_core⟩ := findLastAssigned_eq_some _ _ _ hvic
  have hv_ne : v ≠ s.jobs.length := by
    intro he
    rw [he, hget1] at hv_core
    exact hv_core rfl
  have hv_lt : v < reg1.length := by
    have : v ∈ q1 → v = s.jobs.length ∨ v ∈ s.queue := by
      intro hm
      have := (pqOffer_mem (comparer s.sch) reg1 s.jobs.length s.queue v)
      rw [hoff] at this
      exact this.1 hm
    rcases this hv_mem with h | h
    · exact absurd h hv_ne
    · have := hq _ h
      omega
  simp only [scheduler_new_job, hnoidle, if_pos hsch, ← hreg1, hoff,
    if_pos hrank, hvic]
  rw [updJob_getD_ne _ _ _ _ (Ne.symm hv_ne), updJob_getD_self _ _ _ hv_lt]
  constructor
  · intro hzero
    unfold victimUpd yieldUpd
    dsimp only
    rw [if_pos hzero]
    exact ⟨rfl, rfl, rfl⟩
  · intro hless
    unfold victimUpd yieldUpd
    dsimp only
    rw [if_neg (by omega)]
    exact ⟨rfl, rfl, rfl⟩

/-- Witness for C7 at a concrete input: in the PSJF run `psjfS1` …, job 2
(arriving at t=2, duration 1) preempts job 1, whose recomputed remaining
time equals its duration; its statistics are reset to -1. -/
theorem C7_zero_progress_preemption_reset_witness :
    let s := psjfS3.1
    let reg1 := updateActive 2 (s.jobs ++ [newJobInit 2 2 1 1]) s.queue
    ((reg1.getD 1 defJob).duration -
        (2 - (reg1.getD 1 defJob).wait_time - (reg1.getD 1 defJob).arr_time) =
        (reg1.getD 1 defJob).duration →
      ((scheduler_new_job s 2 2 1 1).1.jobs.getD 1 defJob).response_time = -1 ∧
      ((scheduler_new_job s 2 2 1 1).1.jobs.getD 1 defJob).wait_time = -1 ∧
      ((scheduler_new_job s 2 2 1 1).1.jobs.getD 1 defJob).start_wait = -1) ∧
    ((reg1.getD 1 defJob).duration -
        (2 - (reg1.getD 1 defJob).wait_time - (reg1.getD 1 defJob).arr_time) <
        (reg1.getD 1 defJob).duration →
      ((scheduler_new_job s 2 2 1 1).1.jobs.getD 1 defJob).response_time =
        (reg1.getD 1 defJob).response_time ∧
      ((scheduler_new_job s 2 2 1 1).1.jobs.getD 1 defJob).wait_time =
        (reg1.getD 1 defJob).wait_time ∧
      ((scheduler_new_job s 2 2 1 1).1.jobs.getD 1 defJob).start_wait = 2) :=
  C7_zero_progress_preemption_reset psjfS3.1 2 2 1 1
    (updateActive 2 (psjfS3.1.jobs ++ [newJobInit 2 2 1 1]) psjfS3.1.queue)
    (pqOffer (comparer psjfS3.1.sch)
      (updateActive 2 (psjfS3.1.jobs ++ [newJobInit 2 2 1 1]) psjfS3.1.queue)
      psjfS3.1.jobs.length psjfS3.1.queue).1
    (pqOffer (comparer psjfS3.1.sch)
      (updateActive 2 (psjfS3.1.jobs ++ [newJobInit 2 2 1 1]) psjfS3.1.queue)
      psjfS3.1.jobs.length psjfS3.1.queue).2
    1 (by decide) (by decide) (Or.inl (by decide)) rfl rfl (by decide) (by decide)

/-- Core of C9: after the quantum-expiry scan found the running job `x` at
rank `i` (the rest of the queue being the single ready job `y` with
`core_id = -1`), the requeue-and-dispatch tail of
`scheduler_quantum_expired` returns a job id that is not -1. -/
theorem C9_aux (s : SchedState) (t : Int) (i x y : Nat)
    (hfind : qFindIdx s.jobs (fun j => j.core_id = ((0 : Nat) : Int)) s.queue = some i)
    (hk : s.queue.getD i 0 = x)
    (hrem : removeAt s.queue i = [y])
    (hxy : x ≠ y)
    (hx : x < s.jobs.length) (hy : y < s.jobs.length)
    (hcy : (s.jobs.getD y defJob).core_id = -1)
    (hxid : 0 ≤ (s.jobs.getD x defJob).id)
    (hyid : 0 ≤ (s.jobs.getD y defJob).id) :
    (scheduler_quantum_expired s 0 t).2 ≠ -1 := by
  simp only [scheduler_quantum_expired, selectNext, hfind, hk, hrem]
  set reg1 := updJob s.jobs x (yieldUpd t) with hreg1def
  set reg2 := updJob reg1 x (setTurn (([y] : List Nat).length : Int)) with hreg2def
  set reg3 := renumber reg2 [y] with hreg3def
  have hlen1 : reg1.length = s.jobs.length := by rw [hreg1def, updJob_length]
  have hlen2 : reg2.length = s.jobs.length := by rw [hreg2def, updJob_length, hlen1]
  have hyy : reg3.getD y defJob = { reg2.getD y defJob with turn := 0 } := by
    rw [hreg3def]
    simp only [renumber, renumberFrom]
    rw [updJob_getD_self _ _ _ (by omega)]
  have hy2 : reg2.getD y defJob = s.jobs.getD y defJob := by
    rw [hreg2def, updJob_getD_ne _ _ _ _ hxy, hreg1def, updJob_getD_ne _ _ _ _ hxy]
  have hymem : y ∈ (pqOffer (comparer s.sch) reg3 x [y]).1 :=
    (pqOffer_mem (comparer s.sch) reg3 x [y] y).2 (Or.inr (List.mem_cons_self y []))
  have hycore : (reg3.getD y defJob).core_id = -1 := by
    rw [hyy, hy2]
    exact hcy
  cases hfd : qFind reg3 (fun j => j.core_id = -1)
      (pqOffer (comparer s.sch) reg3 x [y]).1 with
  | none =>
    exact absurd hycore (qFind_eq_none _ _ _ hfd y hymem)
  | some k =>
    dsimp only
    obtain ⟨hk_mem, hk_core⟩ := qFind_eq_some _ _ _ _ hfd
    show (reg3.getD k defJob).id ≠ -1
    rcases (pqOffer_mem (comparer s.sch) reg3 x [y] k).1 hk_mem with hkx | hky
    · -- k = x, the requeued job
      subst hkx
      have hid : (reg3.getD k defJob).id = (s.jobs.getD k defJob).id := by
        rw [hreg3def]
        simp only [renumber, renumberFrom]
        rw [updJob_getD_ne _ _ _ _ (Ne.symm hxy), hreg2def,
          updJob_getD_self _ _ _ (by omega), hreg1def,
          updJob_getD_self _ _ _ hx]
        rfl
      rw [hid]
      omega
    · -- k = y, the ready job
      have hky2 : k = y := by simpa using hky
      subst hky2
      have hid : (reg3.getD k defJob).id = (s.jobs.getD k defJob).id := by
        rw [hyy, hy2]
      rw [hid]
      omega

/-- C9: under RR with one core, when the queue holds exactly two jobs — one
running on core 0, the other ready with `core_id = -1` (both with the
non-negative ids every registered job has) — `scheduler_quantum_expired` on
that core returns a job id, never -1: the expired job is requeued with
`core_id = -1`, so the dispatch scan always finds a ready job. -/
theorem C9_rr_quantum_two_jobs (s : SchedState) (t : Int) (a b : Nat)
    (hsch : s.sch = scheme_t.RR) (hcores : s.numOfCores = 1)
    (hqueue : s.queue = [a, b]) (hab : a ≠ b)
    (ha_len : a < s.jobs.length) (hb_len : b < s.jobs.length)
    (hrun : ((s.jobs.getD a defJob).core_id = 0 ∧ (s.jobs.getD b defJob).core_id = -1) ∨
            ((s.jobs.getD a defJob).core_id = -1 ∧ (s.jobs.getD b defJob).core_id = 0))
    (haid : 0 ≤ (s.jobs.getD a defJob).id)
    (hbid : 0 ≤ (s.jobs.getD b defJob).id) :
    (scheduler_quantum_expired s 0 t).2 ≠ -1 := by
  rcases hrun with ⟨hca, hcb⟩ | ⟨hca, hcb⟩
  · -- the running job sits at queue rank 0
    refine C9_aux s t 0 a b ?_ (by rw [hqueue]; rfl) (by rw [hqueue]; rfl) hab ha_len hb_len hcb haid hbid
    rw [hqueue]
    simp only [qFindIdx]
    rw [if_pos (by rw [hca]; decide)]
  · -- the running job sits at queue rank 1
    refine C9_aux s t 1 b a ?_ (by rw [hqueue]; rfl) (by rw [hqueue]; rfl) (Ne.symm hab)
      hb_len ha_len hca hbid haid
    rw [hqueue]
    simp only [qFindIdx]
    rw [if_neg (by rw [hca]; decide), if_pos (by rw [hcb]; decide)]
    rfl

/-- Witness for C9 at a concrete input: the RR run `rrS1`, `rrS2` (job 0
running on core 0, job 1 ready), quantum expiry at t=2. -/
theorem C9_rr_quantum_two_jobs_witness :
    (scheduler_quantum_expired rrS2.1 0 2).2 ≠ -1 :=
  C9_rr_quantum_two_jobs rrS2.1 2 0 1 (by decide) (by decide) (by decide)
    (by decide) (by decide) (by decide) (Or.inl (by decide)) (by decide) (by decide)

/-- C4: in every reachable state (after `scheduler_start_up` and after every
handler call satisfying the preconditions), the number of cores marked busy
in `core_arr` equals the number of registered uncompleted jobs with an
assigned core (`turnover_time = -1` and `core_id != -1`), and this number
never exceeds the number of cores. -/
theorem C4_busy_count_invariant (s : SchedState) (clk : Int) (hr : Reach s clk) :
    countBusy s.core_arr = countAssigned s.jobs ∧
      countAssigned s.jobs ≤ s.numOfCores := by
  have hwf := reach_wf hr
  refine ⟨hwf.hcount, ?_⟩
  rw [← hwf.hcount, ← hwf.hlen]
  exact countBusy_le_length _

theorem C4_busy_count_invariant_witness :
    countBusy psjfS1.1.core_arr = countAssigned psjfS1.1.jobs ∧
      countAssigned psjfS1.1.jobs ≤ psjfS1.1.numOfCores := by
  have h0 : Reach (scheduler_start_up 1 scheme_t.PSJF) 0 :=
    Reach.start 1 scheme_t.PSJF 0 (by decide) (by decide)
  exact C4_busy_count_invariant psjfS1.1 0
    (Reach.step (Event.arrival 0 0 2 1) h0 (by decide))

/-- C5: a valid `scheduler_job_finished(core, jn, t)` call sets the finished
job's `turnover_time` to `t` minus its `arr_time`, and the recorded
turnaround is at least the job's `duration` (the completion precondition
gives `t - wait_time - arr_time = duration` with `wait_time >= 0` for the
running job). -/
theorem C5_turnaround (s : SchedState) (clk t : Int) (c : Nat) (jn : Int)
    (hr : Reach s clk) (hv : ValidEvent s clk (Event.finished c jn t)) :
    ((scheduler_job_finished s c jn t).1.jobs.getD jn.toNat defJob).turnover_time =
      t - ((scheduler_job_finished s c jn t).1.jobs.getD jn.toNat defJob).arr_time ∧
    ((scheduler_job_finished s c jn t).1.jobs.getD jn.toNat defJob).duration ≤
      ((scheduler_job_finished s c jn t).1.jobs.getD jn.toNat defJob).turnover_time := by
  have hwf := reach_wf hr
  obtain ⟨hct, hc, k0, hk0_mem, hk0_id, hk0_core, hk0_done⟩ := hv
  have hk0_lt : k0 < s.jobs.length := hwf.hqix _ hk0_mem
  have hjnk : jn = (k0 : Int) := by
    rw [← hk0_id, hwf.hids _ hk0_lt]
  have hkn : jn.toNat = k0 := by omega
  have hwait : 0 ≤ (s.jobs.getD k0 defJob).wait_time := by
    refine (hwf.hrun k0 hk0_mem ?_).2.1
    rw [hk0_core]
    omega
  rw [hkn]
  unfold scheduler_job_finished
  dsimp only
  cases hidx : qFindIdx s.jobs (fun j => j.id = jn) s.queue with
  | none => exact absurd hk0_id (qFindIdx_eq_none _ _ _ hidx k0 hk0_mem)
  | some i =>
    dsimp only
    obtain ⟨hi_lt, hp, _⟩ := qFindIdx_eq_some _ _ _ _ hidx
    have hmem_i : s.queue.getD i 0 ∈ s.queue := getD_mem _ _ _ hi_lt
    have hqk : s.queue.getD i 0 = k0 := by
      have h1 := hwf.hids _ (hwf.hqix _ hmem_i)
      rw [h1] at hp
      omega
    rw [hqk]
    set reg1 := updJob s.jobs k0 (finishUpd s.sch t) with hreg1
    set q1 := removeAt s.queue i with hq1
    set reg2 := if s.sch = RR then renumber reg1 q1 else reg1 with hreg2
    have hk0_notin : k0 ∉ q1 := by
      rw [hq1, ← hqk]
      intro hmem
      exact ((removeAt_mem_iff s.queue i hwf.hnodup hi_lt _).1 hmem).2 rfl
    rw [selectNext_getD_not_mem t c _ k0 hk0_notin]
    obtain ⟨r2, hr2⟩ : ∃ r2, reg2.getD k0 defJob =
        { reg1.getD k0 defJob with turn := r2 } := by
      rw [hreg2]
      split
      · exact renumberFrom_turnOnly _ _ _ k0
      · exact ⟨(reg1.getD k0 defJob).turn, rfl⟩
    have hrec : reg1.getD k0 defJob = finishUpd s.sch t (s.jobs.getD k0 defJob) := by
      rw [hreg1]
      exact updJob_getD_self _ _ _ hk0_lt
    show (reg2.getD k0 defJob).turnover_time =
        t - (reg2.getD k0 defJob).arr_time ∧
      (reg2.getD k0 defJob).duration ≤ (reg2.getD k0 defJob).turnover_time
    rw [hr2, hrec]
    constructor
    · show (finishUpd s.sch t (s.jobs.getD k0 defJob)).turnover_time =
        t - (finishUpd s.sch t (s.jobs.getD k0 defJob)).arr_time
      rw [finishUpd_turnover, finishUpd_arr]
    · show (finishUpd s.sch t (s.jobs.getD k0 defJob)).duration ≤
        (finishUpd s.sch t (s.jobs.getD k0 defJob)).turnover_time
      rw [finishUpd_duration, finishUpd_turnover]
      omega

theorem C5_turnaround_witness :
    ((scheduler_job_finished psjfS2.1 0 0 2).1.jobs.getD (0 : Int).toNat
        defJob).turnover_time =
      2 - ((scheduler_job_finished psjfS2.1 0 0 2).1.jobs.getD (0 : Int).toNat
        defJob).arr_time ∧
    ((scheduler_job_finished psjfS2.1 0 0 2).1.jobs.getD (0 : Int).toNat
        defJob).duration ≤
      ((scheduler_job_finished psjfS2.1 0 0 2).1.jobs.getD (0 : Int).toNat
        defJob).turnover_time := by
  have h0 : Reach (scheduler_start_up 1 scheme_t.PSJF) 0 :=
    Reach.start 1 scheme_t.PSJF 0 (by decide) (by decide)
  have h1 : Reach psjfS1.1 0 :=
    Reach.step (Event.arrival 0 0 2 1) h0 (by decide)
  have h2 : Reach psjfS2.1 1 :=
    Reach.step (Event.arrival 1 1 5 1) h1 (by decide)
  exact C5_turnaround psjfS2.1 1 2 0 0 h2 (by decide)

/-- C10: under RR, in every reachable state the `turn` (rr_sequence) values
of the queue members are pairwise distinct, so the RR comparator `compare4`
never returns 0 on two distinct members: it induces a strict total order. -/
theorem C10_rr_turns_distinct (s : SchedState) (clk : Int) (hr : Reach s clk)
    (hrr : s.sch = scheme_t.RR) :
    ∀ i1 i2, i1 < s.queue.length → i2 < s.queue.length → i1 ≠ i2 →
      (s.jobs.getD (s.queue.getD i1 0) defJob).turn ≠
        (s.jobs.getD (s.queue.getD i2 0) defJob).turn ∧
      comparer s.sch (s.jobs.getD (s.queue.getD i1 0) defJob)
        (s.jobs.getD (s.queue.getD i2 0) defJob) ≠ 0 := by
  intro i1 i2 hi1 hi2 hne
  have hwf := reach_wf hr
  have h1 := hwf.hturn hrr i1 hi1
  have h2 := hwf.hturn hrr i2 hi2
  constructor
  · rw [h1, h2]
    omega
  · rw [hrr]
    show compare4 _ _ ≠ 0
    unfold compare4
    rw [h1, h2]
    omega

theorem C10_rr_turns_distinct_witness :
    (rrS2.1.jobs.getD (rrS2.1.queue.getD 0 0) defJob).turn ≠
      (rrS2.1.jobs.getD (rrS2.1.queue.getD 1 0) defJob).turn ∧
    comparer rrS2.1.sch (rrS2.1.jobs.getD (rrS2.1.queue.getD 0 0) defJob)
      (rrS2.1.jobs.getD (rrS2.1.queue.getD 1 0) defJob) ≠ 0 := by
  have h0 : Reach (scheduler_start_up 1 scheme_t.RR) 0 :=
    Reach.start 1 scheme_t.RR 0 (by decide) (by decide)
  have h1 : Reach rrS1.1 0 :=
    Reach.step (Event.arrival 0 0 4 1) h0 (by decide)
  have h2 : Reach rrS2.1 1 :=
    Reach.step (Event.arrival 1 1 4 1) h1 (by decide)
  exact C10_rr_turns_distinct rrS2.1 1 h2 rfl 0 1 (by decide) (by decide)
    (by decide)

/-- C6: under FCFS, SJF or PRI, a running job keeps its assigned core
through every handler call other than its own completion: any valid event
whose job number differs from the running job's id preserves that job's
`core_id` and leaves its core marked busy (quantum expiry cannot occur:
its precondition requires RR). -/
theorem C6_nonpreemptive_core_stable (s : SchedState) (clk : Int) (e : Event)
    (k : Nat) (hr : Reach s clk) (hv : ValidEvent s clk e)
    (hsch : s.sch = scheme_t.FCFS ∨ s.sch = scheme_t.SJF ∨ s.sch = scheme_t.PRI)
    (hk : k ∈ s.queue) (hcore : (s.jobs.getD k defJob).core_id ≠ -1)
    (hown : ∀ c2 jn2 t2, e = Event.finished c2 jn2 t2 →
      jn2 ≠ (s.jobs.getD k defJob).id) :
    ((applyEvent s e).1.jobs.getD k defJob).core_id =
      (s.jobs.getD k defJob).core_id ∧
    (applyEvent s e).1.core_arr.getD (s.jobs.getD k defJob).core_id.toNat 0
      = 1 := by
  have hwf := reach_wf hr
  have hklt : k < s.jobs.length := hwf.hqix _ hk
  obtain ⟨hc0, hc1, hcbit⟩ := (hwf.hrange k hk).resolve_left
    (fun h => hcore h)
  have hnpp : ¬ (s.sch = PSJF ∨ s.sch = PPRI) := by
    rcases hsch with h | h | h <;> rw [h] <;> decide
  cases e with
  | quantum c2 t2 =>
    exfalso
    obtain ⟨_, _, hrr, _⟩ := hv
    rcases hsch with h | h | h <;> rw [h] at hrr <;> exact scheme_t.noConfusion hrr
  | arrival jn t r p =>
    dsimp only [applyEvent]
    exact ⟨new_job_core_preserved s jn t r p k hklt hnpp,
      new_job_busy_preserved s jn t r p _ hcbit hnpp⟩
  | finished c2 jn2 t2 =>
    obtain ⟨hct, hc2, k0, hk0_mem, hk0_id, hk0_core, hk0_done⟩ := hv
    have hk0_lt : k0 < s.jobs.length := hwf.hqix _ hk0_mem
    have hne_k : k ≠ k0 := by
      intro he
      apply hown c2 jn2 t2 rfl
      rw [he]
      exact hk0_id.symm
    have hkc_ne : (s.jobs.getD k defJob).core_id.toNat ≠ c2 := by
      have hinjk := hwf.hinj k hk k0 hk0_mem hne_k hcore
      rw [hk0_core] at hinjk
      omega
    dsimp only [applyEvent]
    unfold scheduler_job_finished
    dsimp only
    cases hidx : qFindIdx s.jobs (fun j => j.id = jn2) s.queue with
    | none => exact absurd hk0_id (qFindIdx_eq_none _ _ _ hidx k0 hk0_mem)
    | some i =>
      dsimp only
      obtain ⟨hi_lt, hp, _⟩ := qFindIdx_eq_some _ _ _ _ hidx
      have hmem_i : s.queue.getD i 0 ∈ s.queue := getD_mem _ _ _ hi_lt
      have hqk : s.queue.getD i 0 = k0 := by
        have h1 := hwf.hids _ (hwf.hqix _ hmem_i)
        rw [h1] at hp
        have h2 := hwf.hids _ hk0_lt
        rw [← hk0_id, h2] at hp
        omega
      rw [hqk]
      set reg1 := updJob s.jobs k0 (finishUpd s.sch t2) with hreg1
      set q1 := removeAt s.queue i with hq1
      set reg2 := if s.sch = RR then renumber reg1 q1 else reg1 with hreg2
      have hcore2 : (reg2.getD k defJob).core_id =
          (s.jobs.getD k defJob).core_id := by
        obtain ⟨r2, hr2⟩ : ∃ r2, reg2.getD k defJob =
            { reg1.getD k defJob with turn := r2 } := by
          rw [hreg2]
          split
          · exact renumberFrom_turnOnly _ _ _ k
          · exact ⟨(reg1.getD k defJob).turn, rfl⟩
        rw [hr2]
        show (reg1.getD k defJob).core_id = _
        rw [hreg1, updJob_getD_ne _ _ _ _ (Ne.symm hne_k)]
      constructor
      · rw [selectNext_getD_core_ne t2 c2 _ k
          (by show (reg2.getD k defJob).core_id ≠ -1; rw [hcore2]; exact hcore)]
        show (reg2.getD k defJob).core_id = _
        exact hcore2
      · rw [selectNext_core_arr_ne t2 c2 _ _ hkc_ne]
        show (s.core_arr.set c2 0).getD (s.jobs.getD k defJob).core_id.toNat 0 = 1
        rw [getD_set_ne _ _ _ _ _ (fun he => hkc_ne he.symm)]
        exact hcbit

theorem C6_nonpreemptive_core_stable_witness :
    ((applyEvent fcfsS1.1 (Event.arrival 1 1 5 1)).1.jobs.getD 0
        defJob).core_id = (fcfsS1.1.jobs.getD 0 defJob).core_id ∧
    (applyEvent fcfsS1.1 (Event.arrival 1 1 5 1)).1.core_arr.getD
      (fcfsS1.1.jobs.getD 0 defJob).core_id.toNat 0 = 1 := by
  have h0 : Reach (scheduler_start_up 1 scheme_t.FCFS) 0 :=
    Reach.start 1 scheme_t.FCFS 0 (by decide) (by decide)
  have h1 : Reach fcfsS1.1 0 :=
    Reach.step (Event.arrival 0 0 5 1) h0 (by decide)
  exact C6_nonpreemptive_core_stable fcfsS1.1 0 (Event.arrival 1 1 5 1) 0 h1
    (by decide) (Or.inl rfl) (by decide) (by decide)
    (fun c2 jn2 t2 h => Event.noConfusion h)

/-- C2, amended: for every valid event, each job's `response_time` either
stays unchanged, or is assigned at a dispatch — from the sentinel -1 to the
dispatch time minus its `arr_time`, a value that is always >= 0 — or is reset
to the sentinel -1 (the zero-progress preemption reset under PSJF/PPRI).  So
the field can be non-sentinel-assigned more than once over a run (see the
counterexample), but every non-sentinel value it ever holds is the time of
some dispatch minus the arrival time, and is non-negative. -/
theorem C2_response_discipline (s : SchedState) (clk : Int) (e : Event)
    (k : Nat) (hr : Reach s clk) (hv : ValidEvent s clk e) :
    ((applyEvent s e).1.jobs.getD k defJob).response_time =
        (s.jobs.getD k defJob).response_time ∨
    ((s.jobs.getD k defJob).response_time = -1 ∧
      ((applyEvent s e).1.jobs.getD k defJob).response_time =
        eventTime e - ((applyEvent s e).1.jobs.getD k defJob).arr_time ∧
      0 ≤ ((applyEvent s e).1.jobs.getD k defJob).response_time) ∨
    ((applyEvent s e).1.jobs.getD k defJob).response_time = -1 := by
  have hwf := reach_wf hr
  cases e with
  | arrival jn t r p =>
    obtain ⟨hjn, hct, _⟩ := hv
    dsimp only [applyEvent, eventTime]
    unfold scheduler_new_job
    dsimp only
    set reg0 := s.jobs ++ [newJobInit jn t r p] with hreg0
    set reg1 := updateActive t reg0 s.queue with hreg1
    have hlen1 : reg1.length = s.jobs.length + 1 := by
      rw [hreg1, updateActive_length, hreg0, List.length_append]
      rfl
    have hstatn : statsOf (reg1.getD s.jobs.length defJob) =
        statsOf (newJobInit jn t r p) := by
      rw [hreg1, updateActive_statsOf, hreg0, getD_append_length]
    have hstato : ∀ m, m < s.jobs.length →
        statsOf (reg1.getD m defJob) = statsOf (s.jobs.getD m defJob) := by
      intro m hm
      rw [hreg1, updateActive_statsOf, hreg0, getD_append_lt _ _ _ _ hm]
    have hrespo : ∀ m, m ≠ s.jobs.length →
        (reg1.getD m defJob).response_time =
          (s.jobs.getD m defJob).response_time := by
      intro m hm
      by_cases hlt : m < s.jobs.length
      · exact (statsOf_ext (hstato m hlt)).2.2.2.2.2.2.1
      · rw [getD_of_length_le _ _ _ (by omega), getD_of_length_le _ _ _ (by omega)]
    have hresp_new : (reg1.getD s.jobs.length defJob).response_time = -1 := by
      rw [(statsOf_ext hstatn).2.2.2.2.2.2.1]
      rfl
    have harr_new : (reg1.getD s.jobs.length defJob).arr_time = t :=
      (statsOf_ext hstatn).2.1
    have hold_new : (s.jobs.getD s.jobs.length defJob).response_time = -1 := by
      rw [getD_of_length_le _ _ _ (le_refl _)]
      rfl
    cases hfi : firstIdle s.core_arr with
    | some i =>
      dsimp only
      by_cases hkn : k = s.jobs.length
      · subst hkn
        rw [updJob_getD_self _ _ _ (by omega), newDispatchUpd_resp,
          newDispatchUpd_arr, harr_new]
        right
        left
        exact ⟨hold_new, by omega, by omega⟩
      · rw [updJob_getD_ne _ _ _ _ (Ne.symm hkn)]
        left
        exact hrespo k hkn
    | none =>
      dsimp only
      by_cases hpp : s.sch = PSJF ∨ s.sch = PPRI
      · rw [if_pos hpp]
        by_cases hrank :
            (pqOffer (comparer s.sch) reg1 s.jobs.length s.queue).2 < s.numOfCores
        · rw [if_pos hrank]
          cases hvic : findLastAssigned reg1
              (pqOffer (comparer s.sch) reg1 s.jobs.length s.queue).1 with
          | none =>
            dsimp only
            by_cases hkn : k = s.jobs.length
            · subst hkn
              rw [updJob_getD_self _ _ _ (by omega), newDispatchUpd_resp,
                newDispatchUpd_arr, harr_new]
              right
              left
              exact ⟨hold_new, by omega, by omega⟩
            · rw [updJob_getD_ne _ _ _ _ (Ne.symm hkn)]
              left
              exact hrespo k hkn
          | some v =>
            dsimp only
            obtain ⟨hv_memq1, hv_core1⟩ := findLastAssigned_eq_some _ _ _ hvic
            have hnewcore : (reg1.getD s.jobs.length defJob).core_id = -1 := by
              rw [(statsOf_ext hstatn).2.2.2.2.2.2.2.2.2]
              rfl
            have hv_ne : v ≠ s.jobs.length := by
              intro he
              rw [he, hnewcore] at hv_core1
              exact hv_core1 rfl
            have hv_lt : v < s.jobs.length := by
              rcases (pqOffer_mem _ _ _ _ _).1 hv_memq1 with h | h
              · exact absurd h hv_ne
              · exact hwf.hqix _ h
            by_cases hkn : k = s.jobs.length
            · subst hkn
              rw [updJob_getD_self _ _ _ (by rw [updJob_length]; omega),
                newDispatchUpd_resp, newDispatchUpd_arr,
                updJob_getD_ne _ _ _ _ hv_ne, harr_new]
              right
              left
              exact ⟨hold_new, by omega, by omega⟩
            · by_cases hkv : k = v
              · subst hkv
                rw [updJob_getD_ne _ _ _ _ (fun he => hkn he.symm),
                  updJob_getD_self _ _ _ (by omega)]
                rcases victimUpd_resp_cases t (reg1.getD k defJob) with h | h
                · right
                  right
                  exact h
                · left
                  rw [h]
                  exact hrespo k hkn
              · rw [updJob_getD_ne _ _ _ _ (fun he => hkn he.symm),
                  updJob_getD_ne _ _ _ _ (fun he => hkv he.symm)]
                left
                exact hrespo k hkn
        · rw [if_neg hrank]
          dsimp only
          by_cases hkn : k = s.jobs.length
          · subst hkn
            right
            right
            exact hresp_new
          · left
            exact hrespo k hkn
      · rw [if_neg hpp]
        dsimp only
        by_cases hkn : k = s.jobs.length
        · subst hkn
          right
          right
          split
          · rw [updJob_getD_self _ _ _ (by omega), setTurn_resp]
            exact hresp_new
          · exact hresp_new
        · left
          split
          · rw [updJob_getD_ne _ _ _ _ (Ne.symm hkn)]
            exact hrespo k hkn
          · exact hrespo k hkn
  | finished c2 jn2 t2 =>
    obtain ⟨hct, hc2, k0, hk0_mem, hk0_id, hk0_core, hk0_done⟩ := hv
    dsimp only [applyEvent, eventTime]
    unfold scheduler_job_finished
    dsimp only
    cases hidx : qFindIdx s.jobs (fun j => j.id = jn2) s.queue with
    | none => exact absurd hk0_id (qFindIdx_eq_none _ _ _ hidx k0 hk0_mem)
    | some i =>
      dsimp only
      obtain ⟨hi_lt, hp, _⟩ := qFindIdx_eq_some _ _ _ _ hidx
      set kf := s.queue.getD i 0 with hkf
      have hmem_f : kf ∈ s.queue := getD_mem _ _ _ hi_lt
      have hlt_f : kf < s.jobs.length := hwf.hqix _ hmem_f
      set reg1 := updJob s.jobs kf (finishUpd s.sch t2) with hreg1
      set q1 := removeAt s.queue i with hq1
      set reg2 := if s.sch = RR then renumber reg1 q1 else reg1 with hreg2
      have hlen2 : reg2.length = s.jobs.length := by
        rw [hreg2]
        split
        · rw [renumber, renumberFrom_length, hreg1, updJob_length]
        · rw [hreg1, updJob_length]
      have hq1_sub : ∀ a ∈ q1, a ∈ s.queue := by
        rw [hq1]
        exact removeAt_subset _ _
      have hfields : ∀ m, (reg2.getD m defJob).response_time =
          (s.jobs.getD m defJob).response_time ∧
          (reg2.getD m defJob).arr_time = (s.jobs.getD m defJob).arr_time := by
        intro m
        obtain ⟨r2, hr2⟩ : ∃ r2, reg2.getD m defJob =
            { reg1.getD m defJob with turn := r2 } := by
          rw [hreg2]
          split
          · exact renumberFrom_turnOnly _ _ _ m
          · exact ⟨(reg1.getD m defJob).turn, rfl⟩
        by_cases hmk : m = kf
        · subst hmk
          rw [hr2, hreg1, updJob_getD_self _ _ _ hlt_f]
          exact ⟨finishUpd_resp _ _ _, finishUpd_arr _ _ _⟩
        · rw [hr2, hreg1, updJob_getD_ne _ _ _ _ (Ne.symm hmk)]
          exact ⟨rfl, rfl⟩
      unfold selectNext
      dsimp only
      cases hfd : qFind reg2 (fun j => j.core_id = -1) q1 with
      | none =>
        dsimp only
        left
        exact (hfields k).1
      | some k3 =>
        dsimp only
        obtain ⟨hk3_mem, hk3_core⟩ := qFind_eq_some _ _ _ _ hfd
        have hk3_lts : k3 < s.jobs.length := hwf.hqix _ (hq1_sub _ hk3_mem)
        have hk3_lt : k3 < reg2.length := by omega
        by_cases hkk : k3 = k
        · subst hkk
          rw [updJob_getD_self _ _ _ hk3_lt]
          by_cases hresp : (reg2.getD k3 defJob).response_time = -1
          · right
            left
            refine ⟨by rw [← (hfields k3).1]; exact hresp, ?_, ?_⟩
            · rw [dispatchAt_resp_unset _ _ _ hresp, dispatchAt_arr]
            · rw [dispatchAt_resp_unset _ _ _ hresp]
              have h5 := (hfields k3).2
              have h6 := (hwf.harr k3 hk3_lts).2
              omega
          · left
            rw [dispatchAt_resp_set _ _ _ hresp]
            exact (hfields k3).1
        · rw [updJob_getD_ne _ _ _ _ hkk]
          left
          exact (hfields k).1
  | quantum c2 t2 =>
    obtain ⟨hct, hc2, hrr, k0, hk0_mem, hk0_core⟩ := hv
    dsimp only [applyEvent, eventTime]
    unfold scheduler_quantum_expired
    dsimp only
    cases hidx : qFindIdx s.jobs (fun j => j.core_id = ((c2 : Nat) : Int))
        s.queue with
    | none =>
      left
      rfl
    | some i =>
      dsimp only
      obtain ⟨hi_lt, hp, _⟩ := qFindIdx_eq_some _ _ _ _ hidx
      set k1 := s.queue.getD i 0 with hk1
      have hmem_1 : k1 ∈ s.queue := getD_mem _ _ _ hi_lt
      have hlt_1 : k1 < s.jobs.length := hwf.hqix _ hmem_1
      set reg1 := updJob s.jobs k1 (yieldUpd t2) with hreg1
      set q1 := removeAt s.queue i with hq1
      set reg2 := updJob reg1 k1 (setTurn (q1.length : Int)) with hreg2
      set reg3 := renumber reg2 q1 with hreg3
      have hlen3 : reg3.length = s.jobs.length := by
        rw [hreg3, renumber, renumberFrom_length, hreg2, updJob_length, hreg1,
          updJob_length]
      have hq1_sub : ∀ a ∈ q1, a ∈ s.queue := by
        rw [hq1]
        exact removeAt_subset _ _
      have hfields : ∀ m, (reg3.getD m defJob).response_time =
          (s.jobs.getD m defJob).response_time ∧
          (reg3.getD m defJob).arr_time = (s.jobs.getD m defJob).arr_time := by
        intro m
        obtain ⟨r2, hr2⟩ := renumberFrom_turnOnly reg2 0 q1 m
        rw [hreg3, renumber, hr2]
        by_cases hmk : m = k1
        · subst hmk
          rw [hreg2, updJob_getD_self _ _ _ (by rw [hreg1, updJob_length]; omega),
            hreg1, updJob_getD_self _ _ _ hlt_1]
          exact ⟨rfl, rfl⟩
        · rw [hreg2, updJob_getD_ne _ _ _ _ (Ne.symm hmk), hreg1,
            updJob_getD_ne _ _ _ _ (Ne.symm hmk)]
          exact ⟨rfl, rfl⟩
      set q2 := (pqOffer (comparer s.sch) reg3 k1 q1).1 with hq2v
      have hq2_mem : ∀ a ∈ q2, a = k1 ∨ a ∈ q1 := by
        intro a ha
        rw [hq2v] at ha
        exact (pqOffer_mem _ _ _ _ _).1 ha
      unfold selectNext
      dsimp only
      cases hfd : qFind reg3 (fun j => j.core_id = -1) q2 with
      | none =>
        dsimp only
        left
        exact (hfields k).1
      | some k3 =>
        dsimp only
        obtain ⟨hk3_mem, hk3_core⟩ := qFind_eq_some _ _ _ _ hfd
        have hk3_lts : k3 < s.jobs.length := by
          rcases hq2_mem _ hk3_mem with h | h
          · omega
          · exact hwf.hqix _ (hq1_sub _ h)
        have hk3_lt : k3 < reg3.length := by omega
        by_cases hkk : k3 = k
        · subst hkk
          rw [updJob_getD_self _ _ _ hk3_lt]
          by_cases hresp : (reg3.getD k3 defJob).response_time = -1
          · right
            left
            refine ⟨by rw [← (hfields k3).1]; exact hresp, ?_, ?_⟩
            · rw [dispatchAt_resp_unset _ _ _ hresp, dispatchAt_arr]
            · rw [dispatchAt_resp_unset _ _ _ hresp]
              have h5 := (hfields k3).2
              have h6 := (hwf.harr k3 hk3_lts).2
              omega
          · left
            rw [dispatchAt_resp_set _ _ _ hresp]
            exact (hfields k3).1
        · rw [updJob_getD_ne _ _ _ _ hkk]
          left
          exact (hfields k).1

theorem C2_response_discipline_witness :
    ((applyEvent rrS2.1 (Event.quantum 0 2)).1.jobs.getD 1
        defJob).response_time = (rrS2.1.jobs.getD 1 defJob).response_time ∨
    ((rrS2.1.jobs.getD 1 defJob).response_time = -1 ∧
      ((applyEvent rrS2.1 (Event.quantum 0 2)).1.jobs.getD 1
          defJob).response_time =
        eventTime (Event.quantum 0 2) -
          ((applyEvent rrS2.1 (Event.quantum 0 2)).1.jobs.getD 1
            defJob).arr_time ∧
      0 ≤ ((applyEvent rrS2.1 (Event.quantum 0 2)).1.jobs.getD 1
        defJob).response_time) ∨
    ((applyEvent rrS2.1 (Event.quantum 0 2)).1.jobs.getD 1
        defJob).response_time = -1 := by
  have h0 : Reach (scheduler_start_up 1 scheme_t.RR) 0 :=
    Reach.start 1 scheme_t.RR 0 (by decide) (by decide)
  have h1 : Reach rrS1.1 0 :=
    Reach.step (Event.arrival 0 0 4 1) h0 (by decide)
  have h2 : Reach rrS2.1 1 :=
    Reach.step (Event.arrival 1 1 4 1) h1 (by decide)
  exact C2_response_discipline rrS2.1 1 (Event.quantum 0 2) 1 h2 (by decide)

end Sched
